import Mathlib

/-
Verification of the token-alignment engine of the e-book repository.

The repository reconciles an expected token sequence (words or sentences of a
document) with a detected token sequence carrying time intervals, producing one
timestamp per expected token.  The relevant source files are
server/scripts/stable_ts_align.py (greedy window matcher and gap interpolator),
server/scripts/whisperx_align.py (banded dynamic-programming aligner, a second
gap interpolator and the proportional segment distributor) and
server/scripts/whisperx_align_sentences.py (sentence-span matcher).

Modelling conventions:
 - Python floats are modelled by rationals; Python round(x, 3) (round half to
   even) is modelled exactly by rhe / round3 below.
 - Python dict records with keys "start" and "end" are the structure TS; the
   field stop stands for the Python key "end" (end is a Lean keyword).
 - Character classes are modelled exactly on the ASCII range: the regex class
   \w is letters, digits and the underscore; Python str.lower moves only the
   ASCII uppercase letters inside this fragment.  (Outside ASCII Python
   additionally keeps Unicode alphanumerics; no claim below depends on a
   non-ASCII character, and the model simply removes them.)
 - while-loops over two cursors are modelled with a fuel argument so that
   every definition stays kernel-computable; the progress theorem for the
   greedy matcher shows the supplied fuel is never exhausted.
-/

/-- Round half to even on rationals, exactly Python's builtin round(). -/
def rhe (q : ℚ) : ℤ :=
  if q - ⌊q⌋ < 1/2 then ⌊q⌋
  else if (1:ℚ)/2 < q - ⌊q⌋ then ⌊q⌋ + 1
  else if ⌊q⌋ % 2 = 0 then ⌊q⌋ else ⌊q⌋ + 1

/-- Python's round(x, 3): round to the nearest thousandth, ties to even. -/
def round3 (q : ℚ) : ℚ := (rhe (1000 * q) : ℚ) / 1000

theorem rhe_intCast (k : ℤ) : rhe (k : ℚ) = k := by
  simp [rhe]

theorem floor_le_rhe (q : ℚ) : ⌊q⌋ ≤ rhe q := by
  unfold rhe
  split
  · exact le_refl _
  · split
    · exact Int.le_add_one (le_refl _)
    · split
      · exact le_refl _
      · exact Int.le_add_one (le_refl _)

theorem rhe_le_floor_add_one (q : ℚ) : rhe q ≤ ⌊q⌋ + 1 := by
  unfold rhe
  split
  · exact Int.le_add_one (le_refl _)
  · split
    · exact le_refl _
    · split
      · exact Int.le_add_one (le_refl _)
      · exact le_refl _

theorem rhe_mono {x y : ℚ} (h : x ≤ y) : rhe x ≤ rhe y := by
  rcases lt_or_eq_of_le (Int.floor_le_floor h) with hf | hf
  · calc rhe x ≤ ⌊x⌋ + 1 := rhe_le_floor_add_one x
      _ ≤ ⌊y⌋ := hf
      _ ≤ rhe y := floor_le_rhe y
  · by_cases h1 : x - ⌊x⌋ < 1/2
    · calc rhe x = ⌊x⌋ := by unfold rhe; rw [if_pos h1]
        _ = ⌊y⌋ := hf
        _ ≤ rhe y := floor_le_rhe y
    · have hfx : (⌊x⌋ : ℚ) = (⌊y⌋ : ℚ) := by exact_mod_cast hf
      have hy1 : ¬ (y - ⌊y⌋ < 1/2) := by
        push_neg at h1 ⊢
        rw [← hfx]
        linarith
      by_cases h2 : (1:ℚ)/2 < x - ⌊x⌋
      · have hy2 : (1:ℚ)/2 < y - ⌊y⌋ := by rw [← hfx]; linarith
        have hx : rhe x = ⌊x⌋ + 1 := by unfold rhe; rw [if_neg h1, if_pos h2]
        have hy : rhe y = ⌊y⌋ + 1 := by unfold rhe; rw [if_neg hy1, if_pos hy2]
        rw [hx, hy, hf]
      · by_cases h3 : (1:ℚ)/2 < y - ⌊y⌋
        · have hy : rhe y = ⌊y⌋ + 1 := by unfold rhe; rw [if_neg hy1, if_pos h3]
          rw [hy, ← hf]
          exact rhe_le_floor_add_one x
        · have : rhe x = rhe y := by
            unfold rhe
            rw [if_neg h1, if_neg h2, if_neg hy1, if_neg h3, hf]
          exact le_of_eq this

theorem rhe_sub_le (q : ℚ) : (rhe q : ℚ) - q ≤ 1/2 := by
  have hfl : (⌊q⌋ : ℚ) ≤ q := Int.floor_le q
  unfold rhe
  split
  · linarith
  · rename_i h1
    push_neg at h1
    split
    · push_cast
      linarith
    · split
      · linarith
      · push_cast
        linarith

theorem le_rhe_add_half (q : ℚ) : q - 1/2 ≤ (rhe q : ℚ) := by
  have hfl : q < ⌊q⌋ + 1 := Int.lt_floor_add_one q
  unfold rhe
  split
  · rename_i h1
    linarith
  · rename_i h1
    push_neg at h1
    split
    · push_cast
      linarith
    · split
      · linarith
      · push_cast
        linarith

theorem abs_rhe_sub (q : ℚ) : |(rhe q : ℚ) - q| ≤ 1/2 := by
  rw [abs_le]
  constructor
  · have := le_rhe_add_half q
    linarith
  · have := rhe_sub_le q
    linarith

theorem round3_mono {x y : ℚ} (h : x ≤ y) : round3 x ≤ round3 y := by
  unfold round3
  have h1 : rhe (1000 * x) ≤ rhe (1000 * y) := rhe_mono (by linarith)
  have h2 : ((rhe (1000 * x) : ℚ)) ≤ ((rhe (1000 * y) : ℚ)) := by exact_mod_cast h1
  linarith

theorem abs_round3_sub (q : ℚ) : |round3 q - q| ≤ 1/2000 := by
  unfold round3
  have h := abs_rhe_sub (1000 * q)
  rw [abs_le] at h ⊢
  obtain ⟨h1, h2⟩ := h
  constructor <;> linarith

/-- Timestamp record, Python dict with keys "start" and "end". -/
structure TS where
  start : ℚ
  stop : ℚ
deriving DecidableEq, Repr

/-- Detected token: text with a time interval, as produced upstream. -/
structure DT where
  word : String
  start : ℚ
  stop : ℚ
deriving DecidableEq, Repr

/-- Default detected token, used only to make list indexing total. -/
def dDT : DT := ⟨"", 0, 0⟩

/-- ASCII word character: the regex class of both normalizers keeps exactly
the characters of this class (on the ASCII fragment): letters, digits and the
underscore. -/
def isWordChar (c : Char) : Bool :=
  (65 ≤ c.toNat && c.toNat ≤ 90) || (97 ≤ c.toNat && c.toNat ≤ 122) ||
  (48 ≤ c.toNat && c.toNat ≤ 57) || c.toNat == 95

theorem toNat_ofNat_lt (n : ℕ) (h : n < 55296) : (Char.ofNat n).toNat = n := by
  rw [Char.ofNat, dif_pos (Or.inl h)]
  simp [Char.ofNatAux, Char.toNat, UInt32.toNat]

theorem toNat_toLower_of_upper {c : Char} (h1 : 65 ≤ c.toNat) (h2 : c.toNat ≤ 90) :
    (c.toLower).toNat = c.toNat + 32 := by
  rw [Char.toLower, if_pos ⟨h1, h2⟩]
  exact toNat_ofNat_lt _ (by omega)

theorem toLower_of_not_upper {c : Char} (h : ¬ (65 ≤ c.toNat ∧ c.toNat ≤ 90)) :
    c.toLower = c := by
  rw [Char.toLower, if_neg h]

theorem isWordChar_toLower (c : Char) : isWordChar c.toLower = isWordChar c := by
  by_cases h : 65 ≤ c.toNat ∧ c.toNat ≤ 90
  · obtain ⟨h1, h2⟩ := h
    have ht := toNat_toLower_of_upper h1 h2
    have hl : isWordChar c.toLower = true := by
      unfold isWordChar
      rw [ht]
      simp only [Bool.or_eq_true, Bool.and_eq_true, decide_eq_true_eq, beq_iff_eq]
      omega
    have hr : isWordChar c = true := by
      unfold isWordChar
      simp only [Bool.or_eq_true, Bool.and_eq_true, decide_eq_true_eq, beq_iff_eq]
      omega
    rw [hl, hr]
  · rw [toLower_of_not_upper h]

theorem toLower_toLower (c : Char) : c.toLower.toLower = c.toLower := by
  by_cases h : 65 ≤ c.toNat ∧ c.toNat ≤ 90
  · have ht := toNat_toLower_of_upper h.1 h.2
    apply toLower_of_not_upper
    rw [ht]
    omega
  · rw [toLower_of_not_upper h, toLower_of_not_upper h]

/-- Interval entries that an unresolved run of length k receives: the i-th
entry is prev_end + i*dur rounded to 3 decimals, with dur = gap/count as in
both interpolators (stable_ts_align.py lines 156-164, whisperx_align.py lines
174-183). -/
def emitRun (p n : ℚ) (k : ℕ) : List TS :=
  (List.range k).map (fun (i : ℕ) =>
    ⟨round3 (p + (i : ℚ) * ((n - p) / k)), round3 (p + ((i : ℚ) + 1) * ((n - p) / k))⟩)

/-- Gap interpolation: scan the timestamp array once; pend counts the pending
unresolved entries of the current run, p is the previous resolved end time (0
before any resolved entry).  On a resolved entry the run is flushed with right
boundary n = that entry's start; at the end of the array the right boundary is
p + c*pend (c is 0.15 in stable_ts_align.py and 0.1 in whisperx_align.py).
This is the single in-place while-loop of _interpolate_gaps, expressed as a
left-to-right scan. -/
def fillGo (c : ℚ) : ℚ → ℕ → List (Option TS) → List TS
  | p, pend, [] => emitRun p (p + c * pend) pend
  | p, pend, some t :: rest => emitRun p t.start pend ++ t :: fillGo c t.stop 0 rest
  | p, pend, none :: rest => fillGo c p (pend + 1) rest

namespace StableTs

/-- normalize of stable_ts_align.py: re.sub removes the non-word characters,
then .lower() maps ASCII uppercase down. -/
def normalize (w : String) : List Char :=
  (w.data.filter isWordChar).map Char.toLower

/-- Lookahead of the branch "expected word spans multiple stable-ts words"
(lines 72-89): starting from the suffix of detected words after the cursor,
keep concatenating normalized detected words while the combination is shorter
than the expected length + 5; return the absolute index of the last consumed
word on a match.  The loop tests its length bound before each append, exactly
as the Python while condition. -/
def findSpanSt (expNorm : List Char) : List Char → ℕ → List DT → Option ℕ
  | _, _, [] => none
  | comb, la, w :: rest =>
    if comb.length < expNorm.length + 5 then
      let c2 := comb ++ normalize w.word
      if c2 = expNorm ∨ expNorm.isPrefixOf c2 then some la
      else findSpanSt expNorm c2 (la + 1) rest
    else none

/-- Lookahead of the branch "stable-ts word spans multiple expected words"
(lines 91-111), symmetric to findSpanSt over the expected words. -/
def findSpanExp (stNorm : List Char) : List Char → ℕ → List String → Option ℕ
  | _, _, [] => none
  | comb, el, x :: rest =>
    if comb.length < stNorm.length + 5 then
      let c2 := comb ++ normalize x
      if c2 = stNorm ∨ stNorm.isPrefixOf c2 then some el
      else findSpanExp stNorm c2 (el + 1) rest
    else none

/-- One iteration of the main while-loop of align_stable_words_to_expected
(lines 57-119): returns the new (exp_idx, st_idx, timestamps).
Branch order is that of the source: direct / prefix match, expected spanning
several detected words, detected word spanning several expected words, and the
no-match fallback that assigns the current detected interval anyway. -/
def greedyStep (stW : List DT) (expW : List String) (e s : ℕ)
    (ts : List (Option TS)) : ℕ × ℕ × List (Option TS) :=
  let eN := normalize (expW.getD e "")
  let w := stW.getD s dDT
  let sN := normalize w.word
  if eN = sN ∨ sN.isPrefixOf eN ∨ eN.isPrefixOf sN then
    (e + 1, s + 1, ts.set e (some ⟨w.start, w.stop⟩))
  else
    match findSpanSt eN sN (s + 1) (stW.drop (s + 1)) with
    | some r => (e + 1, r + 1, ts.set e (some ⟨w.start, (stW.getD r dDT).stop⟩))
    | none =>
      match findSpanExp sN eN (e + 1) (expW.drop (e + 1)) with
      | some l =>
        let count := l - e + 1
        let dur := (w.stop - w.start) / count
        (l + 1, s + 1,
          (List.range count).foldl (fun acc k =>
            acc.set (e + k)
              (some ⟨round3 (w.start + k * dur), round3 (w.start + (k + 1) * dur)⟩)) ts)
      | none => (e + 1, s + 1, ts.set e (some ⟨w.start, w.stop⟩))

/-- The main while-loop (lines 57-119) with fuel; every iteration strictly
increases exp_idx (the progress theorem below), so fuel = number of expected
words is always enough. -/
def alignLoop (stW : List DT) (expW : List String) :
    ℕ → ℕ → ℕ → List (Option TS) → ℕ × ℕ × List (Option TS)
  | 0, e, s, ts => (e, s, ts)
  | f + 1, e, s, ts =>
    if e < expW.length ∧ s < stW.length then
      match greedyStep stW expW e s ts with
      | (e2, s2, ts2) => alignLoop stW expW f e2 s2 ts2
    else (e, s, ts)

/-- Trailing fill loop (lines 122-132): remaining expected words take the
leftover detected intervals one-for-one, or stay unresolved. -/
def fillLoop (stW : List DT) (lenE : ℕ) :
    ℕ → ℕ → ℕ → List (Option TS) → List (Option TS)
  | 0, _, _, ts => ts
  | f + 1, e, s, ts =>
    if e < lenE then
      if s < stW.length then
        let w := stW.getD s dDT
        fillLoop stW lenE f (e + 1) (s + 1) (ts.set e (some ⟨w.start, w.stop⟩))
      else
        fillLoop stW lenE f (e + 1) s (ts.set e none)
    else ts

/-- Gap interpolator _interpolate_gaps (lines 140-164): runs with no resolved
right neighbour extend at 0.15 seconds per token. -/
def interpolate_gaps (ts : List (Option TS)) : List TS :=
  fillGo (15/100) 0 0 ts

/-- align_stable_words_to_expected (lines 39-137). -/
def align_stable_words_to_expected (stW : List DT) (expW : List String) : List TS :=
  if stW.isEmpty then expW.map (fun _ => ⟨0, 0⟩)
  else
    match alignLoop stW expW expW.length 0 0 (expW.map (fun _ => none)) with
    | (e1, s1, ts1) => interpolate_gaps (fillLoop stW expW.length expW.length e1 s1 ts1)

end StableTs

/-- Whitespace split (Python str.split()): maximal runs of non-whitespace
characters; the accumulator holds the current run reversed. -/
def splitWSAux : List Char → List Char → List (List Char)
  | acc, [] => if acc.isEmpty then [] else [acc.reverse]
  | acc, c :: rest =>
    if c.isWhitespace then
      if acc.isEmpty then splitWSAux [] rest else acc.reverse :: splitWSAux [] rest
    else splitWSAux (c :: acc) rest

def splitWS (l : List Char) : List (List Char) := splitWSAux [] l

namespace WhisperX

/-- normalize of whisperx_align.py: word.lower() first, then re.sub removes the
non-word characters. -/
def normalize (w : String) : List Char :=
  (w.data.map Char.toLower).filter isWordChar

/-- Python substring containment a in b. -/
def subList (a b : List Char) : Bool :=
  (List.range (b.length + 1)).any (fun i => a.isPrefixOf (b.drop i))

/-- GAP_PENALTY of align_words_dp. -/
def GAP : ℤ := -1

/-- MATCH_SCORE of align_words_dp. -/
def MATCH : ℤ := 2

/-- MISMATCH_PENALTY of align_words_dp. -/
def MISMATCH : ℤ := -1

/-- Cell score of align_words_dp (lines 104-109): normalized equality scores
MATCH, one-sided substring containment of nonempty keys scores MATCH // 2, and
anything else MISMATCH. -/
def score (dW : List DT) (eW : List String) (i j : ℕ) : ℤ :=
  let t := normalize (dW.getD (i - 1) dDT).word
  let e := normalize (eW.getD (j - 1) "")
  if t = e then MATCH
  else if ¬t.isEmpty ∧ ¬e.isEmpty ∧ (subList t e ∨ subList e t) then MATCH / 2
  else MISMATCH

/-- bandwidth = min(max(50, m // 4), m) of align_words_dp (line 75). -/
def bandwidth (m : ℕ) : ℕ := min (max 50 (m / 4)) m

/-- diag_j = int(round(i * m / n)) if n > 0 else i (line 97). -/
def diagJ (i m n : ℕ) : ℤ := if 0 < n then rhe ((i * m : ℚ) / n) else i

/-- The banded column range of row i: j_lo = max(1, diag_j - bandwidth) and
j_hi = min(m, diag_j + bandwidth) (lines 98-99). -/
def inBand (m n i j : ℕ) : Bool :=
  decide (max 1 (diagJ i m n - bandwidth m) ≤ (j : ℤ) ∧
          (j : ℤ) ≤ min (m : ℤ) (diagJ i m n + bandwidth m))

/-- Guarded addition: dp[..] + cost if dp[..] > -inf else -inf (lines 111-113);
none stands for float(-inf). -/
def dpAdd : Option ℤ → ℤ → Option ℤ
  | none, _ => none
  | some v, s => some (v + s)

/-- max over scores where none stands for float(-inf). -/
def oMax : Option ℤ → Option ℤ → Option ℤ
  | none, b => b
  | a, none => a
  | some x, some y => some (max x y)

/-- Row 0 of the dp table: dp[0][j] = dp[0][j-1] + GAP_PENALTY (lines 89-91),
with dp[0][0] = 0. -/
def dpRow0 : ℕ → Option ℤ
  | 0 => some 0
  | j + 1 => dpAdd (dpRow0 j) GAP

/-- Row i of the dp table given row i-1: dp[i][0] = dp[i-1][0] + GAP_PENALTY
(lines 85-87); in-band cells take max(diag, up, left) (lines 111-116); cells
outside the band keep the float(-inf) initialization (line 81). -/
def dpRowAux (dW : List DT) (eW : List String) (prev : ℕ → Option ℤ) (i : ℕ) :
    ℕ → Option ℤ
  | 0 => dpAdd (prev 0) GAP
  | j + 1 =>
    if inBand eW.length dW.length i (j + 1) then
      oMax (oMax (dpAdd (prev j) (score dW eW i (j + 1)))
                 (dpAdd (prev (j + 1)) GAP))
           (dpAdd (dpRowAux dW eW prev i j) GAP)
    else none

def dpRowN (dW : List DT) (eW : List String) : ℕ → ℕ → Option ℤ
  | 0 => dpRow0
  | i + 1 => dpRowAux dW eW (dpRowN dW eW i) (i + 1)

/-- dp[i][j] of the banded dynamic program of align_words_dp. -/
def dpCell (dW : List DT) (eW : List String) (i j : ℕ) : Option ℤ :=
  dpRowN dW eW i j

/-- The candidate score of the diagonal move at (i, j) (line 111). -/
def dpDiag (dW : List DT) (eW : List String) (i j : ℕ) : Option ℤ :=
  dpAdd (dpCell dW eW (i - 1) (j - 1)) (score dW eW i j)

/-- The candidate score of skipping the detected token (line 112). -/
def dpUp (dW : List DT) (eW : List String) (i j : ℕ) : Option ℤ :=
  dpAdd (dpCell dW eW (i - 1) j) GAP

/-- The candidate score of skipping the expected token (line 113). -/
def dpLeft (dW : List DT) (eW : List String) (i j : ℕ) : Option ℤ :=
  dpAdd (dpCell dW eW i (j - 1)) GAP

/-- Recorded backtrack choice (lines 82-91 and 118-123): 0 diagonal, 1 skip
detected, 2 skip expected; cells never evaluated keep the initialization 0. -/
def btCell (dW : List DT) (eW : List String) : ℕ → ℕ → ℕ
  | 0, 0 => 0
  | _ + 1, 0 => 1
  | 0, _ + 1 => 2
  | i + 1, j + 1 =>
    if inBand eW.length dW.length (i + 1) (j + 1) then
      let d := dpDiag dW eW (i + 1) (j + 1)
      let u := dpUp dW eW (i + 1) (j + 1)
      let l := dpLeft dW eW (i + 1) (j + 1)
      let best := oMax (oMax d u) l
      if best = d then 0 else if best = u then 1 else 2
    else 0

/-- Backtrack walk (lines 126-139) along row 0: every step is "skip expected"
and appends a pair with no detected index; the Python reversal is modelled by
emitting in forward order. -/
def walkRow0 : ℕ → List (ℕ × Option ℕ)
  | 0 => []
  | j + 1 => walkRow0 j ++ [(j, none)]

/-- Backtrack walk from cell (i, j) with i ≥ 1, given the walk of row i-1:
diagonal steps append (j-1, i-1), skip-detected steps append nothing,
skip-expected steps append (j-1, none) (lines 128-137). -/
def walkAux (dW : List DT) (eW : List String) (prev : ℕ → List (ℕ × Option ℕ))
    (i : ℕ) : ℕ → List (ℕ × Option ℕ)
  | 0 => prev 0
  | j + 1 =>
    if btCell dW eW i (j + 1) = 0 then prev j ++ [(j, some (i - 1))]
    else if btCell dW eW i (j + 1) = 1 then prev (j + 1)
    else walkAux dW eW prev i j ++ [(j, none)]

def walkRowN (dW : List DT) (eW : List String) : ℕ → ℕ → List (ℕ × Option ℕ)
  | 0 => walkRow0
  | i + 1 => walkAux dW eW (walkRowN dW eW i) (i + 1)

/-- align_words_dp (lines 63-140): the ordered alignment pair list obtained by
backtracking from dp[n][m]. -/
def align_words_dp (dW : List DT) (eW : List String) : List (ℕ × Option ℕ) :=
  walkRowN dW eW dW.length eW.length

/-- Modelled from the spec: the unbanded dynamic program of section 4.3 with
the same scoring, i.e. the recurrence of align_words_dp with every cell of
every row evaluated (no band restriction). -/
def dpRowAuxU (dW : List DT) (eW : List String) (prev : ℕ → Option ℤ) (i : ℕ) :
    ℕ → Option ℤ
  | 0 => dpAdd (prev 0) GAP
  | j + 1 =>
    oMax (oMax (dpAdd (prev j) (score dW eW i (j + 1)))
               (dpAdd (prev (j + 1)) GAP))
         (dpAdd (dpRowAuxU dW eW prev i j) GAP)

def dpRowNU (dW : List DT) (eW : List String) : ℕ → ℕ → Option ℤ
  | 0 => dpRow0
  | i + 1 => dpRowAuxU dW eW (dpRowNU dW eW i) (i + 1)

def dpCellU (dW : List DT) (eW : List String) (i j : ℕ) : Option ℤ :=
  dpRowNU dW eW i j

def btCellU (dW : List DT) (eW : List String) : ℕ → ℕ → ℕ
  | 0, 0 => 0
  | _ + 1, 0 => 1
  | 0, _ + 1 => 2
  | i + 1, j + 1 =>
    let d := dpAdd (dpCellU dW eW i j) (score dW eW (i + 1) (j + 1))
    let u := dpAdd (dpCellU dW eW i (j + 1)) GAP
    let l := dpAdd (dpCellU dW eW (i + 1) j) GAP
    let best := oMax (oMax d u) l
    if best = d then 0 else if best = u then 1 else 2

def walkAuxU (dW : List DT) (eW : List String) (prev : ℕ → List (ℕ × Option ℕ))
    (i : ℕ) : ℕ → List (ℕ × Option ℕ)
  | 0 => prev 0
  | j + 1 =>
    if btCellU dW eW i (j + 1) = 0 then prev j ++ [(j, some (i - 1))]
    else if btCellU dW eW i (j + 1) = 1 then prev (j + 1)
    else walkAuxU dW eW prev i j ++ [(j, none)]

def walkRowNU (dW : List DT) (eW : List String) : ℕ → ℕ → List (ℕ × Option ℕ)
  | 0 => walkRow0
  | i + 1 => walkAuxU dW eW (walkRowNU dW eW i) (i + 1)

def align_words_dp_unbanded (dW : List DT) (eW : List String) :
    List (ℕ × Option ℕ) :=
  walkRowNU dW eW dW.length eW.length

/-- Emission of one backtrack step (i, j, choice): diagonal steps produce the
pair (j-1, some (i-1)), skip-detected steps produce nothing, skip-expected
steps produce (j-1, none). -/
def emitStep : ℕ × ℕ × ℕ → List (ℕ × Option ℕ)
  | (i, j, 0) => [(j - 1, some (i - 1))]
  | (_, _, 1) => []
  | (_, j, _) => [(j - 1, none)]

/-- The full backtrack path along row 0, in forward order. -/
def stepsRow0 : ℕ → List (ℕ × ℕ × ℕ)
  | 0 => []
  | j + 1 => stepsRow0 j ++ [(0, j + 1, 2)]

/-- The full backtrack path from (i, j) with i ≥ 1, every step recorded. -/
def stepsAux (dW : List DT) (eW : List String) (prev : ℕ → List (ℕ × ℕ × ℕ))
    (i : ℕ) : ℕ → List (ℕ × ℕ × ℕ)
  | 0 => prev 0 ++ [(i, 0, 1)]
  | j + 1 =>
    if btCell dW eW i (j + 1) = 0 then prev j ++ [(i, j + 1, 0)]
    else if btCell dW eW i (j + 1) = 1 then prev (j + 1) ++ [(i, j + 1, 1)]
    else stepsAux dW eW prev i j ++ [(i, j + 1, 2)]

def stepsRowN (dW : List DT) (eW : List String) : ℕ → ℕ → List (ℕ × ℕ × ℕ)
  | 0 => stepsRow0
  | i + 1 => stepsAux dW eW (stepsRowN dW eW i) (i + 1)

/-- Second pass of interpolate_timestamps (lines 159-183): identical loop to
the stable-ts interpolator but with 0.1 seconds per token when a run has no
resolved right neighbour. -/
def interpolate_gap_fill (ts : List (Option TS)) : List TS :=
  fillGo (1/10) 0 0 ts

/-- A transcription segment: a multi-word text span with a time interval. -/
structure Seg where
  text : String
  start : ℚ
  stop : ℚ
deriving DecidableEq, Repr

/-- Word count of a segment, max(len(seg_words), 1) (line 212). -/
def segWordCount (s : Seg) : ℕ := max (splitWS s.text.data).length 1

/-- The per-token intervals one segment distributes to its n_words assigned
tokens (lines 234-241): word_dur = seg_dur / n_words, the k-th token gets
[seg_start + k*word_dur, seg_start + (k+1)*word_dur], rounded. -/
def segBlock (s : Seg) (nW : ℕ) : List TS :=
  (List.range nW).map (fun (k : ℕ) =>
    ⟨round3 (s.start + (k : ℚ) * ((s.stop - s.start) / nW)),
     round3 (s.start + ((k : ℚ) + 1) * ((s.stop - s.start) / nW))⟩)

/-- Token-count assignment of distribute_segments_to_words (lines 221-232):
the last segment takes all remaining tokens; earlier segments take
min(max(1, round(cnt / tot * m)), m - exp_idx) tokens; a segment assigned 0
tokens is skipped. -/
def distAssign (tot m : ℕ) : List (Seg × ℕ) → ℕ → List (Seg × ℕ)
  | [], _ => []
  | (s, cnt) :: rest, e =>
    let nW := if rest.isEmpty then m - e
              else min (max 1 (rhe ((cnt : ℚ) / tot * m)).toNat) (m - e)
    if nW = 0 then distAssign tot m rest e
    else (s, nW) :: distAssign tot m rest (e + nW)

/-- Trailing pad loop (lines 245-251): extend 0.3 seconds per remaining token
from the last emitted end time. -/
def padLoop : ℕ → ℚ → List TS
  | 0, _ => []
  | k + 1, le => ⟨round3 le, round3 (le + 3/10)⟩ :: padLoop k (round3 (le + 3/10))

/-- distribute_segments_to_words (lines 188-253). -/
def distribute_segments_to_words (segs : List Seg) (expW : List String) : List TS :=
  if segs.isEmpty ∨ expW.isEmpty then
    (List.range expW.length).map (fun (i : ℕ) =>
      ⟨round3 ((i : ℚ) * (1/2)), round3 (((i : ℚ) + 1) * (1/2))⟩)
  else
    let pairs := segs.map (fun s => (s, segWordCount s))
    let tot := (pairs.map (fun p => p.2)).sum
    let asn := distAssign tot expW.length pairs 0
    let ts := (asn.map (fun p => segBlock p.1 p.2)).flatten
    ts ++ padLoop (expW.length - (asn.map (fun p => p.2)).sum)
      (match ts.getLast? with | some t => t.stop | none => 0)

end WhisperX

namespace WXSent

/-- normalize of whisperx_align_sentences.py: lowercase, remove every
character that is neither a word character nor whitespace, then strip. -/
def normalize (t : String) : List Char :=
  let kept := (t.data.map Char.toLower).filter (fun c => isWordChar c || c.isWhitespace)
  ((kept.dropWhile Char.isWhitespace).reverse.dropWhile Char.isWhitespace).reverse

/-- Timed sub-token of the flattened transcription stream, text already
normalized (lines 41-48). -/
structure TW where
  word : List Char
  start : ℚ
  stop : ℚ
deriving DecidableEq, Repr

/-- Default sub-token for total indexing. -/
def dTW : TW := ⟨[], 0, 0⟩

/-- The normalized words of one expected sentence (line 71): sentence.split(),
empty entries skipped, each normalized. -/
def sentWords (sentence : String) : List (List Char) :=
  ((splitWS sentence.data).filter (fun w =>
    ¬ (((w.dropWhile Char.isWhitespace).reverse.dropWhile Char.isWhitespace).reverse).isEmpty)).map
    (fun w => normalize w.asString)

/-- Window score of a candidate start (lines 81-84): number of exact matches
over the first 5 sentence words. -/
def scoreAt (tws : List TW) (sw : List (List Char)) (s : ℕ) : ℕ :=
  (sw.take 5).enum.countP (fun p =>
    match tws[s + p.1]? with
    | some t => t.word = p.2
    | none => false)

/-- Best-start search (lines 76-87): scan candidates from trans_ptr up to
trans_ptr + 3*len(sent_words) (bounded by the stream length), keeping the
earliest strictly best score; initial best is (trans_ptr, 0). -/
def bestStart (tws : List TW) (sw : List (List Char)) (ptr : ℕ) : ℕ :=
  ((List.range' ptr (min (ptr + sw.length * 3) tws.length - ptr)).foldl
    (fun b s => let sc := scoreAt tws sw s; if b.2 < sc then (s, sc) else b)
    (ptr, 0)).1

/-- One sentence record (lines 89-100): the span runs from the best start
through best_start + len(sent_words) - 1, clipped to the stream. -/
def sentRecord (tws : List TW) (sw : List (List Char)) (ptr : ℕ) : TS :=
  let bs := bestStart tws sw ptr
  let se := min (bs + sw.length) tws.length
  let stT := if bs < tws.length then (tws.getD bs dTW).start else 0
  let enT := if 0 < se ∧ se ≤ tws.length then (tws.getD (se - 1) dTW).stop else stT
  ⟨round3 stT, round3 enT⟩

/-- Main sentence loop of match_segments_to_sentences (lines 67-104): one
monotone pointer walks the sub-token stream; empty sentences are skipped. -/
def matchLoop (tws : List TW) : List String → ℕ → List TS
  | [], _ => []
  | sent :: rest, ptr =>
    let sw := sentWords sent
    if sw.isEmpty then matchLoop tws rest ptr
    else
      let bs := bestStart tws sw ptr
      let se := min (bs + sw.length) tws.length
      sentRecord tws sw ptr :: matchLoop tws rest se

/-- Trace of the sentence loop: one triple (pointer before, best start,
span end = pointer after) per processed sentence. -/
def matchSpans (tws : List TW) : List String → ℕ → List (ℕ × ℕ × ℕ)
  | [], _ => []
  | sent :: rest, ptr =>
    let sw := sentWords sent
    if sw.isEmpty then matchSpans tws rest ptr
    else
      let bs := bestStart tws sw ptr
      let se := min (bs + sw.length) tws.length
      (ptr, bs, se) :: matchSpans tws rest se

end WXSent

/-- Modelled from the spec: the normalizer that claim C7 describes, keeping
only alphanumeric characters (letters and digits, no underscore) and
lowercasing. -/
def specNormalize (w : String) : List Char :=
  (w.data.filter Char.isAlphanum).map Char.toLower

/- Membership in the regex class \w used by both normalizers, and
str.lower, are Unicode primitives of the Python runtime. Full Unicode
lowercasing maps a character to a list of characters (U+0130 is the one
character whose lowercase form has two), so the normalizers below take the
two primitives as parameters isW and low; pyIsW and pyLow instantiate them
exactly on the code points exercised in this file. -/

/-- normalize of stable_ts_align.py (line 36): re.sub removes the non-word
characters first, .lower() lowercases second. -/
def normSt (isW : Char → Bool) (low : Char → List Char) (w : List Char) : List Char :=
  (w.filter isW).flatMap low

/-- normalize of whisperx_align.py (line 60): word.lower() lowercases first,
re.sub removes the non-word characters second. -/
def normWx (isW : Char → Bool) (low : Char → List Char) (w : List Char) : List Char :=
  (w.flatMap low).filter isW

/-- The class \w on the code points exercised here: the ASCII word
characters, U+0130 (LATIN CAPITAL LETTER I WITH DOT ABOVE), and the Greek
letters U+0391-U+03A9 (U+03A2 is unassigned) and U+03B1-U+03C9. U+0307
COMBINING DOT ABOVE, whitespace and ASCII punctuation are outside \w. -/
def pyIsW (c : Char) : Bool :=
  isWordChar c || c.toNat == 0x130 ||
    (0x391 ≤ c.toNat && c.toNat ≤ 0x3A9 && c.toNat != 0x3A2) ||
    (0x3B1 ≤ c.toNat && c.toNat ≤ 0x3C9)

/-- str.lower on the same code points: ASCII as Char.toLower, the Greek
capitals shift by 0x20 (the simple mapping; the conditional final-sigma rule
maps into the same lowercase block and is not exercised here), everything
already lowercase or caseless maps to itself, and U+0130 is the single
character whose lowercase form has two characters, "i" then U+0307. -/
def pyLow (c : Char) : List Char :=
  if c.toNat = 0x130 then ['i', '̇']
  else if 0x391 ≤ c.toNat ∧ c.toNat ≤ 0x3A9 ∧ c.toNat ≠ 0x3A2 then [Char.ofNat (c.toNat + 0x20)]
  else [c.toLower]

/-- Letters on the exercised code points: the ASCII letters, U+0130 and the
Greek block. -/
def pyLetter (c : Char) : Bool :=
  (65 ≤ c.toNat && c.toNat ≤ 90) || (97 ≤ c.toNat && c.toNat ≤ 122) ||
    c.toNat == 0x130 ||
    (0x391 ≤ c.toNat && c.toNat ≤ 0x3A9 && c.toNat != 0x3A2) ||
    (0x3B1 ≤ c.toNat && c.toNat ≤ 0x3C9)

theorem pyIsW_iff (c : Char) : pyIsW c = true ↔
    (isWordChar c = true ∨ c.toNat = 0x130 ∨
      (0x391 ≤ c.toNat ∧ c.toNat ≤ 0x3A9 ∧ c.toNat ≠ 0x3A2) ∨
      (0x3B1 ≤ c.toNat ∧ c.toNat ≤ 0x3C9)) := by
  unfold pyIsW
  simp only [Bool.or_eq_true, Bool.and_eq_true, decide_eq_true_eq, beq_iff_eq, bne_iff_ne,
    ne_eq]
  tauto

theorem pyLetter_iff (c : Char) : pyLetter c = true ↔
    ((65 ≤ c.toNat ∧ c.toNat ≤ 90) ∨ (97 ≤ c.toNat ∧ c.toNat ≤ 122) ∨
      c.toNat = 0x130 ∨
      (0x391 ≤ c.toNat ∧ c.toNat ≤ 0x3A9 ∧ c.toNat ≠ 0x3A2) ∨
      (0x3B1 ≤ c.toNat ∧ c.toNat ≤ 0x3C9)) := by
  unfold pyLetter
  simp only [Bool.or_eq_true, Bool.and_eq_true, decide_eq_true_eq, beq_iff_eq, bne_iff_ne,
    ne_eq]
  tauto

theorem isWordChar_iff (c : Char) : isWordChar c = true ↔
    ((65 ≤ c.toNat ∧ c.toNat ≤ 90) ∨ (97 ≤ c.toNat ∧ c.toNat ≤ 122) ∨
      (48 ≤ c.toNat ∧ c.toNat ≤ 57) ∨ c.toNat = 95) := by
  unfold isWordChar
  simp only [Bool.or_eq_true, Bool.and_eq_true, decide_eq_true_eq, beq_iff_eq]
  tauto

theorem pyLow_else (c : Char) (h1 : c.toNat ≠ 0x130)
    (h2 : ¬ (0x391 ≤ c.toNat ∧ c.toNat ≤ 0x3A9 ∧ c.toNat ≠ 0x3A2)) :
    pyLow c = [c.toLower] := by
  unfold pyLow
  rw [if_neg h1, if_neg h2]

theorem pyLow_cases (c d : Char) (h : d ∈ pyLow c) :
    (c.toNat = 0x130 ∧ (d.toNat = 0x69 ∨ d.toNat = 0x307)) ∨
    (0x391 ≤ c.toNat ∧ c.toNat ≤ 0x3A9 ∧ c.toNat ≠ 0x3A2 ∧ d.toNat = c.toNat + 0x20) ∨
    (c.toNat ≠ 0x130 ∧ ¬ (0x391 ≤ c.toNat ∧ c.toNat ≤ 0x3A9 ∧ c.toNat ≠ 0x3A2) ∧
      d = c.toLower) := by
  unfold pyLow at h
  by_cases h1 : c.toNat = 0x130
  · rw [if_pos h1] at h
    refine Or.inl ⟨h1, ?_⟩
    rcases List.mem_cons.mp h with hd | hd
    · exact Or.inl (by rw [hd]; rfl)
    · rw [List.mem_singleton] at hd
      exact Or.inr (by rw [hd]; rfl)
  · rw [if_neg h1] at h
    by_cases h2 : 0x391 ≤ c.toNat ∧ c.toNat ≤ 0x3A9 ∧ c.toNat ≠ 0x3A2
    · rw [if_pos h2] at h
      rw [List.mem_singleton] at h
      exact Or.inr (Or.inl ⟨h2.1, h2.2.1, h2.2.2, by rw [h]; exact toNat_ofNat_lt _ (by omega)⟩)
    · rw [if_neg h2] at h
      rw [List.mem_singleton] at h
      exact Or.inr (Or.inr ⟨h1, h2, h⟩)

/-- A character produced by lowercasing is lowercase-fixed: true of the real
primitives (the full lowercase mapping emits only lowercase-fixed
characters) and proved here for the instantiation. -/
theorem pyLow_fix (c : Char) : ∀ d ∈ pyLow c, pyLow d = [d] := by
  intro d hd
  rcases pyLow_cases c d hd with ⟨-, hd69 | hd307⟩ | ⟨hg1, hg2, -, hdg⟩ | ⟨h1, h2, hdl⟩
  · rw [pyLow_else d (by omega) (by omega), toLower_of_not_upper (by omega)]
  · rw [pyLow_else d (by omega) (by omega), toLower_of_not_upper (by omega)]
  · rw [pyLow_else d (by omega) (by omega), toLower_of_not_upper (by omega)]
  · subst hdl
    by_cases hu : 65 ≤ c.toNat ∧ c.toNat ≤ 90
    · have ht := toNat_toLower_of_upper hu.1 hu.2
      rw [pyLow_else _ (by omega) (by omega), toLower_of_not_upper (by omega)]
    · rw [toLower_of_not_upper hu, pyLow_else c h1 h2, toLower_of_not_upper hu]

/-- A word character other than U+0130 lowercases to word characters only:
true of the real primitives (U+0130 is the single word character whose
lowercase form contains a non-word character, U+0307) and proved here for
the instantiation. -/
theorem pyIsW_low (c : Char) (hW : pyIsW c = true) (hne : c.toNat ≠ 0x130) :
    ∀ d ∈ pyLow c, pyIsW d = true := by
  intro d hd
  rcases pyLow_cases c d hd with ⟨h130, -⟩ | ⟨hg1, hg2, -, hdg⟩ | ⟨-, h2, hdl⟩
  · exact absurd h130 hne
  · rw [pyIsW_iff]
    exact Or.inr (Or.inr (Or.inr (by omega)))
  · subst hdl
    rcases (pyIsW_iff c).mp hW with hA | h130 | hGc | hGl
    · rw [pyIsW_iff]
      exact Or.inl (by rw [isWordChar_toLower]; exact hA)
    · exact absurd h130 hne
    · exact absurd hGc h2
    · rw [toLower_of_not_upper (by omega)]
      exact hW

/-- A letter is a word character and its lowercase form contains a word
character: true of the real primitives (alphabetic characters are word
characters and lowercasing a letter yields at least one letter) and proved
here for the instantiation. -/
theorem pyLetter_spec (c : Char) (hL : pyLetter c = true) :
    pyIsW c = true ∧ ∃ d ∈ pyLow c, pyIsW d = true := by
  have hWc : pyIsW c = true := by
    rw [pyIsW_iff]
    rcases (pyLetter_iff c).mp hL with h | h | h | h | h
    · exact Or.inl ((isWordChar_iff c).mpr (Or.inl h))
    · exact Or.inl ((isWordChar_iff c).mpr (Or.inr (Or.inl h)))
    · exact Or.inr (Or.inl h)
    · exact Or.inr (Or.inr (Or.inl h))
    · exact Or.inr (Or.inr (Or.inr h))
  refine ⟨hWc, ?_⟩
  rcases (pyLetter_iff c).mp hL with h | h | h | h | h
  · refine ⟨c.toLower, ?_, ?_⟩
    · rw [pyLow_else c (by omega) (by omega)]
      exact List.mem_singleton.mpr rfl
    · have ht := toNat_toLower_of_upper h.1 h.2
      rw [pyIsW_iff]
      exact Or.inl ((isWordChar_iff _).mpr (Or.inr (Or.inl (by omega))))
  · refine ⟨c.toLower, ?_, ?_⟩
    · rw [pyLow_else c (by omega) (by omega)]
      exact List.mem_singleton.mpr rfl
    · rw [toLower_of_not_upper (by omega)]
      exact hWc
  · refine ⟨'i', ?_, by decide⟩
    unfold pyLow
    rw [if_pos h]
    exact List.mem_cons_self _ _
  · refine ⟨Char.ofNat (c.toNat + 0x20), ?_, ?_⟩
    · unfold pyLow
      rw [if_neg (by omega), if_pos h]
      exact List.mem_singleton.mpr rfl
    · rw [pyIsW_iff]
      have ht := toNat_ofNat_lt (c.toNat + 0x20) (by omega)
      exact Or.inr (Or.inr (Or.inr (by omega)))
  · refine ⟨c.toLower, ?_, ?_⟩
    · rw [pyLow_else c (by omega) (by omega)]
      exact List.mem_singleton.mpr rfl
    · rw [toLower_of_not_upper (by omega)]
      exact hWc

theorem flatMap_fix (low : Char → List Char) (l : List Char)
    (h : ∀ d ∈ l, low d = [d]) : l.flatMap low = l := by
  induction l with
  | nil => rfl
  | cons c t ih =>
    rw [List.flatMap_cons, h c (List.mem_cons_self c t),
      ih (fun d hd => h d (List.mem_cons_of_mem c hd))]
    rfl

theorem normWx_out (isW : Char → Bool) (low : Char → List Char)
    (hfix : ∀ c, ∀ d ∈ low c, low d = [d]) (s : List Char) :
    ∀ d ∈ normWx isW low s, isW d = true ∧ low d = [d] := by
  intro d hd
  unfold normWx at hd
  rw [List.mem_filter] at hd
  obtain ⟨c, -, hdc⟩ := List.mem_flatMap.mp hd.1
  exact ⟨hd.2, hfix c d hdc⟩

theorem normWx_idem (isW : Char → Bool) (low : Char → List Char)
    (hfix : ∀ c, ∀ d ∈ low c, low d = [d]) (s : List Char) :
    normWx isW low (normWx isW low s) = normWx isW low s := by
  unfold normWx
  have h1 : ((s.flatMap low).filter isW).flatMap low = (s.flatMap low).filter isW := by
    apply flatMap_fix
    intro d hd
    obtain ⟨c, -, hdc⟩ := List.mem_flatMap.mp (List.mem_filter.mp hd).1
    exact hfix c d hdc
  rw [h1]
  exact List.filter_eq_self.mpr (fun a ha => (List.mem_filter.mp ha).2)

theorem normSt_out (isW : Char → Bool) (low : Char → List Char)
    (hfix : ∀ c, ∀ d ∈ low c, low d = [d])
    (hw : ∀ c, isW c = true → c.toNat ≠ 0x130 → ∀ d ∈ low c, isW d = true)
    (s : List Char) (hs : ∀ c ∈ s, c.toNat ≠ 0x130) :
    ∀ d ∈ normSt isW low s, isW d = true ∧ low d = [d] := by
  intro d hd
  unfold normSt at hd
  obtain ⟨c, hc, hdc⟩ := List.mem_flatMap.mp hd
  rw [List.mem_filter] at hc
  exact ⟨hw c hc.2 (hs c hc.1) d hdc, hfix c d hdc⟩

theorem normSt_idem (isW : Char → Bool) (low : Char → List Char)
    (hfix : ∀ c, ∀ d ∈ low c, low d = [d])
    (hw : ∀ c, isW c = true → c.toNat ≠ 0x130 → ∀ d ∈ low c, isW d = true)
    (s : List Char) (hs : ∀ c ∈ s, c.toNat ≠ 0x130) :
    normSt isW low (normSt isW low s) = normSt isW low s := by
  have hall := normSt_out isW low hfix hw s hs
  show ((normSt isW low s).filter isW).flatMap low = normSt isW low s
  rw [List.filter_eq_self.mpr (fun a ha => (hall a ha).1)]
  exact flatMap_fix low _ (fun d hd => (hall d hd).2)

theorem normSt_letter (isW : Char → Bool) (low : Char → List Char) (c : Char)
    (hWc : isW c = true) : normSt isW low [c] = low c := by
  unfold normSt
  simp [List.filter_cons, hWc]

/-- Claim C7 (amended): the two normalizers are the two compositions of the
Python primitives isW (membership in the regex word class) and low
(lowercasing, one character to a list of characters); under the Unicode
facts stated as hypotheses (characters produced by lowercasing are
lowercase-fixed; a word character other than U+0130 lowercases to word
characters only; a letter is a word character whose lowercase form contains
a word character), the empty string yields the empty key for both; the
whisperx normalizer (lowercase first, filter second) emits only word
characters, emits only lowercase-fixed characters, and is idempotent on
every input; the stable-ts normalizer (filter first, lowercase second) has
the same output properties and is idempotent on every input free of U+0130;
and a letter of any script is preserved by both normalizers: it normalizes
to its nonempty lowercase form. -/
theorem C7_normalizer (isW : Char → Bool) (low : Char → List Char) (isL : Char → Bool)
    (s : List Char)
    (hfix : ∀ c, ∀ d ∈ low c, low d = [d])
    (hw : ∀ c, isW c = true → c.toNat ≠ 0x130 → ∀ d ∈ low c, isW d = true)
    (hL : ∀ c, isL c = true → isW c = true ∧ ∃ d ∈ low c, isW d = true) :
    normSt isW low [] = [] ∧ normWx isW low [] = [] ∧
    (∀ d ∈ normWx isW low s, isW d = true ∧ low d = [d]) ∧
    normWx isW low (normWx isW low s) = normWx isW low s ∧
    ((∀ c ∈ s, c.toNat ≠ 0x130) →
      (∀ d ∈ normSt isW low s, isW d = true ∧ low d = [d]) ∧
      normSt isW low (normSt isW low s) = normSt isW low s) ∧
    (∀ c, isL c = true →
      normSt isW low [c] = low c ∧ low c ≠ [] ∧ normWx isW low [c] ≠ []) := by
  refine ⟨rfl, rfl, normWx_out isW low hfix s, normWx_idem isW low hfix s,
    fun hs => ⟨normSt_out isW low hfix hw s hs, normSt_idem isW low hfix hw s hs⟩, ?_⟩
  intro c hLc
  obtain ⟨hWc, d, hdc, hWd⟩ := hL c hLc
  refine ⟨normSt_letter isW low c hWc, List.ne_nil_of_mem hdc, ?_⟩
  apply List.ne_nil_of_mem (a := d)
  unfold normWx
  rw [List.mem_filter]
  refine ⟨List.mem_flatMap.mpr ⟨c, List.mem_singleton.mpr rfl, hdc⟩, hWd⟩

/-- Claim C7 counterexample, two parts against the original wording. The
underscore: both normalizers keep '_' although it is neither alphanumeric
nor a letter, because the regex word class contains it. U+0130: "İ".lower()
is "i" followed by U+0307 COMBINING DOT ABOVE, which is not a word
character, so the stable-ts normalizer (filter before lowercase) is not
idempotent at "İ": the second application removes the combining dot. -/
theorem C7_normalizer_cex :
    normSt pyIsW pyLow ['_'] = ['_'] ∧ normWx pyIsW pyLow ['_'] = ['_'] ∧
    specNormalize "_" = [] ∧ normSt pyIsW pyLow ['_'] ≠ specNormalize "_" ∧
    normSt pyIsW pyLow ['İ'] = ['i', '̇'] ∧
    normSt pyIsW pyLow (normSt pyIsW pyLow ['İ']) = ['i'] ∧
    normSt pyIsW pyLow (normSt pyIsW pyLow ['İ']) ≠ normSt pyIsW pyLow ['İ'] := by
  refine ⟨by decide, by decide, by decide, by decide, by decide, by decide, by decide⟩


/-- Evaluation of the greedy matcher on the Scenario A input of the spec.
Because "brownfox" starts with "brown", the direct prefix rule fires first and
assigns the whole interval [0.5, 1.0] to "brown"; "fox" is then left without a
detected token and the tail interpolation extends it at 0.15s per token. -/
theorem scenarioA_eval :
    StableTs.align_stable_words_to_expected
      [⟨"the", 0, 1/5⟩, ⟨"quick", 1/5, 1/2⟩, ⟨"brownfox", 1/2, 1⟩]
      ["The", "quick", "brown", "fox"] =
      [⟨0, 1/5⟩, ⟨1/5, 1/2⟩, ⟨1/2, 1⟩, ⟨1, 23/20⟩] := by
  simp +decide only [StableTs.align_stable_words_to_expected, StableTs.alignLoop,
    StableTs.greedyStep, StableTs.normalize, StableTs.findSpanSt, StableTs.findSpanExp,
    StableTs.fillLoop, StableTs.interpolate_gaps, fillGo, emitRun,
    List.set, List.getD, List.drop, List.map, List.filter, List.foldl, List.range,
    List.range.loop, List.isEmpty, List.append]
  norm_num [round3, rhe]

/-- Claim C3 counterexample: on the Scenario A input the Greedy Window Matcher
does not split "brownfox" evenly; "brown" receives [0.5, 1.0] (not [0.5, 0.75])
and "fox" receives [1.0, 1.15] (not [0.75, 1.0]). -/
theorem C3_scenarioA_cex :
    (StableTs.align_stable_words_to_expected
      [⟨"the", 0, 1/5⟩, ⟨"quick", 1/5, 1/2⟩, ⟨"brownfox", 1/2, 1⟩]
      ["The", "quick", "brown", "fox"])[2]? = some ⟨1/2, 1⟩ ∧
    (⟨1/2, 1⟩ : TS) ≠ ⟨1/2, 3/4⟩ ∧
    (StableTs.align_stable_words_to_expected
      [⟨"the", 0, 1/5⟩, ⟨"quick", 1/5, 1/2⟩, ⟨"brownfox", 1/2, 1⟩]
      ["The", "quick", "brown", "fox"])[3]? = some ⟨1, 23/20⟩ ∧
    (⟨1, 23/20⟩ : TS) ≠ ⟨3/4, 1⟩ := by
  rw [scenarioA_eval]
  refine ⟨rfl, ?_, rfl, ?_⟩
  · intro h
    have := congrArg TS.stop h
    norm_num at this
  · intro h
    have := congrArg TS.start h
    norm_num at this

/-- Claim C3 (amended): on the Scenario A input the direct prefix rule of the
Greedy Window Matcher consumes "brownfox" for "brown" alone, so the output is
the = [0, 0.2], quick = [0.2, 0.5], brown = [0.5, 1.0], and "fox" is
extrapolated by the gap interpolator to [1.0, 1.15]. -/
theorem C3_scenarioA :
    StableTs.align_stable_words_to_expected
      [⟨"the", 0, 1/5⟩, ⟨"quick", 1/5, 1/2⟩, ⟨"brownfox", 1/2, 1⟩]
      ["The", "quick", "brown", "fox"] =
      [⟨0, 1/5⟩, ⟨1/5, 1/2⟩, ⟨1/2, 1⟩, ⟨1, 23/20⟩] :=
  scenarioA_eval

theorem findSpanExp_bound (sN : List Char) :
    ∀ L comb el l, StableTs.findSpanExp sN comb el L = some l →
      el ≤ l ∧ l < el + L.length := by
  intro L
  induction L with
  | nil => intro comb el l h; simp [StableTs.findSpanExp] at h
  | cons x rest ih =>
    intro comb el l h
    unfold StableTs.findSpanExp at h
    dsimp only at h
    split at h
    · split at h
      · injection h with h2
        simp only [List.length_cons]
        omega
      · have := ih _ _ _ h
        simp only [List.length_cons]
        omega
    · cases h

theorem findSpanSt_bound (eN : List Char) :
    ∀ L comb la l, StableTs.findSpanSt eN comb la L = some l →
      la ≤ l ∧ l < la + L.length := by
  intro L
  induction L with
  | nil => intro comb la l h; simp [StableTs.findSpanSt] at h
  | cons x rest ih =>
    intro comb la l h
    unfold StableTs.findSpanSt at h
    dsimp only at h
    split at h
    · split at h
      · injection h with h2
        simp only [List.length_cons]
        omega
      · have := ih _ _ _ h
        simp only [List.length_cons]
        omega
    · cases h

/-- Every branch of one greedy iteration strictly increases exp_idx. -/
theorem greedyStep_exp_lt (stW : List DT) (expW : List String) (e s : ℕ)
    (ts : List (Option TS)) : e < (StableTs.greedyStep stW expW e s ts).1 := by
  unfold StableTs.greedyStep
  dsimp only
  split
  · exact Nat.lt_succ_self e
  · split
    · exact Nat.lt_succ_self e
    · split
      · rename_i l hl
        have := findSpanExp_bound _ _ _ _ _ hl
        simp only
        omega
      · exact Nat.lt_succ_self e

theorem alignLoop_exit (stW : List DT) (expW : List String) (f e s : ℕ)
    (ts : List (Option TS)) (h : ¬ (e < expW.length ∧ s < stW.length)) :
    StableTs.alignLoop stW expW f e s ts = (e, s, ts) := by
  cases f with
  | zero => rfl
  | succ f => simp [StableTs.alignLoop, h]

theorem alignLoop_fuel (stW : List DT) (expW : List String) :
    ∀ d f1 f2 e s ts, expW.length - e ≤ d →
      expW.length - e ≤ f1 → expW.length - e ≤ f2 →
      StableTs.alignLoop stW expW f1 e s ts = StableTs.alignLoop stW expW f2 e s ts := by
  intro d
  induction d with
  | zero =>
    intro f1 f2 e s ts hd h1 h2
    have he : ¬ (e < expW.length ∧ s < stW.length) := by omega
    rw [alignLoop_exit _ _ _ _ _ _ he, alignLoop_exit _ _ _ _ _ _ he]
  | succ d ih =>
    intro f1 f2 e s ts hd h1 h2
    by_cases hc : e < expW.length ∧ s < stW.length
    · have hlen : 0 < expW.length - e := by omega
      cases f1 with
      | zero => omega
      | succ f1 =>
        cases f2 with
        | zero => omega
        | succ f2 =>
          simp only [StableTs.alignLoop, if_pos hc]
          have hp := greedyStep_exp_lt stW expW e s ts
          rcases hg : StableTs.greedyStep stW expW e s ts with ⟨e2, s2, ts2⟩
          rw [hg] at hp
          simp only at hp
          exact ih f1 f2 e2 s2 ts2 (by omega) (by omega) (by omega)
    · rw [alignLoop_exit _ _ _ _ _ _ hc, alignLoop_exit _ _ _ _ _ _ hc]

/-- Claim C10: every branch of the Greedy Window Matcher's main loop strictly
increases the expected-token cursor, so the loop performs at most
len(expected_words) iterations and the matcher terminates on every input: its
result is independent of any fuel bound of at least len(expected) - exp_idx. -/
theorem C10_greedy_termination (stW : List DT) (expW : List String) :
    (∀ e s ts, e < expW.length → s < stW.length →
      e < (StableTs.greedyStep stW expW e s ts).1) ∧
    (∀ f1 f2 e s ts, expW.length - e ≤ f1 → expW.length - e ≤ f2 →
      StableTs.alignLoop stW expW f1 e s ts = StableTs.alignLoop stW expW f2 e s ts) := by
  constructor
  · intro e s ts _ _
    exact greedyStep_exp_lt stW expW e s ts
  · intro f1 f2 e s ts h1 h2
    exact alignLoop_fuel stW expW (expW.length - e) f1 f2 e s ts (le_refl _) h1 h2

/-- Claim C10 witness: instantiation on a concrete noisy input where no token
matches. -/
theorem C10_greedy_termination_w :
    0 < (StableTs.greedyStep [⟨"zzz", 0, 1⟩] ["abc"] 0 0 [none]).1 ∧
    StableTs.alignLoop [⟨"zzz", 0, 1⟩] ["abc"] 5 0 0 [none] =
      StableTs.alignLoop [⟨"zzz", 0, 1⟩] ["abc"] 1 0 0 [none] := by
  refine ⟨(C10_greedy_termination [⟨"zzz", 0, 1⟩] ["abc"]).1 0 0 [none]
    (by decide) (by decide), ?_⟩
  exact (C10_greedy_termination [⟨"zzz", 0, 1⟩] ["abc"]).2 5 1 0 0 [none]
    (by decide) (by decide)

theorem isPrefixOf_comparable {l1 l2 l3 : List Char}
    (h1 : l1.isPrefixOf l3 = true) (h2 : l2.isPrefixOf l3 = true) :
    l1.isPrefixOf l2 = true ∨ l2.isPrefixOf l1 = true := by
  rw [List.isPrefixOf_iff_prefix] at h1 h2 ⊢
  rw [List.isPrefixOf_iff_prefix]
  exact List.prefix_or_prefix_of_prefix h1 h2

theorem isPrefixOf_append_self (l t : List Char) : l.isPrefixOf (l ++ t) = true := by
  rw [List.isPrefixOf_iff_prefix]
  exact List.prefix_append l t

/-- The match condition of the "expected spans several detected words" branch
can never hold once the direct branch has failed: the running combination
always extends the current detected key, so any prefix relation it satisfies
against the expected key would make the two keys comparable, which is exactly
what the direct branch tested. -/
theorem findSpanSt_none (eN sN : List Char)
    (h : ¬(eN = sN ∨ sN.isPrefixOf eN = true ∨ eN.isPrefixOf sN = true)) :
    ∀ L suf la, StableTs.findSpanSt eN (sN ++ suf) la L = none := by
  intro L
  induction L with
  | nil => intro suf la; rfl
  | cons x rest ih =>
    intro suf la
    unfold StableTs.findSpanSt
    dsimp only
    rw [List.append_assoc]
    split
    · have hcond : ¬((sN ++ (suf ++ StableTs.normalize x.word)) = eN ∨
          eN.isPrefixOf (sN ++ (suf ++ StableTs.normalize x.word)) = true) := by
        rintro (hc | hc)
        · apply h
          right; left
          rw [← hc]
          exact isPrefixOf_append_self sN _
        · have hs : sN.isPrefixOf (sN ++ (suf ++ StableTs.normalize x.word)) = true :=
            isPrefixOf_append_self sN _
          rcases isPrefixOf_comparable hc hs with hp | hp
          · exact h (Or.inr (Or.inr hp))
          · exact h (Or.inr (Or.inl hp))
      rw [if_neg hcond]
      exact ih (suf ++ StableTs.normalize x.word) (la + 1)
    · rfl

/-- Symmetric dead-branch fact for "detected word spans several expected
words". -/
theorem findSpanExp_none (eN sN : List Char)
    (h : ¬(eN = sN ∨ sN.isPrefixOf eN = true ∨ eN.isPrefixOf sN = true)) :
    ∀ L suf el, StableTs.findSpanExp sN (eN ++ suf) el L = none := by
  intro L
  induction L with
  | nil => intro suf el; rfl
  | cons x rest ih =>
    intro suf el
    unfold StableTs.findSpanExp
    dsimp only
    rw [List.append_assoc]
    split
    · have hcond : ¬((eN ++ (suf ++ StableTs.normalize x)) = sN ∨
          sN.isPrefixOf (eN ++ (suf ++ StableTs.normalize x)) = true) := by
        rintro (hc | hc)
        · apply h
          right; right
          rw [← hc]
          exact isPrefixOf_append_self eN _
        · have he : eN.isPrefixOf (eN ++ (suf ++ StableTs.normalize x)) = true :=
            isPrefixOf_append_self eN _
          rcases isPrefixOf_comparable hc he with hp | hp
          · exact h (Or.inr (Or.inl hp))
          · exact h (Or.inr (Or.inr hp))
      rw [if_neg hcond]
      exact ih (suf ++ StableTs.normalize x) (el + 1)
    · rfl

/-- Every iteration of the greedy loop reduces to the same update: assign the
current detected interval to the current expected token and advance both
cursors.  When the direct branch fails the two normalized keys are prefix
incomparable, and then neither span-search can ever satisfy its match
condition (both would produce two comparable prefixes of the same
combination), so the fallback fires. -/
theorem greedyStep_eq (stW : List DT) (expW : List String) (e s : ℕ)
    (ts : List (Option TS)) :
    StableTs.greedyStep stW expW e s ts =
      (e + 1, s + 1,
        ts.set e (some ⟨(stW.getD s dDT).start, (stW.getD s dDT).stop⟩)) := by
  unfold StableTs.greedyStep
  dsimp only
  split
  · rfl
  · rename_i h
    have h1 := findSpanSt_none (StableTs.normalize (expW.getD e ""))
      (StableTs.normalize (stW.getD s dDT).word) h (stW.drop (s + 1)) [] (s + 1)
    rw [List.append_nil] at h1
    rw [h1]
    have h2 := findSpanExp_none (StableTs.normalize (expW.getD e ""))
      (StableTs.normalize (stW.getD s dDT).word) h (expW.drop (e + 1)) [] (e + 1)
    rw [List.append_nil] at h2
    rw [h2]

theorem set_append_some (A : List TS) (k : ℕ) (v : TS) :
    (A.map some ++ List.replicate (k + 1) (none : Option TS)).set A.length (some v) =
    (A ++ [v]).map some ++ List.replicate k none := by
  induction A with
  | nil => rfl
  | cons a A ih =>
    simp only [List.map_cons, List.cons_append, List.length_cons, List.set_cons_succ,
      ih, List.map_append]

/-- The interval a detected token contributes. -/
def iv (w : DT) : TS := ⟨w.start, w.stop⟩

/-- Closed form of the greedy main loop: starting from cursors (e, s) with the
first e timestamps resolved, the loop zips the next d = min(remaining
expected, remaining detected) detected intervals onto the next d expected
positions and stops with both cursors advanced by d. -/
theorem alignLoop_run (stW : List DT) (expW : List String) :
    ∀ f e s A, A.length = e → e ≤ expW.length → expW.length - e ≤ f →
      s ≤ stW.length →
      StableTs.alignLoop stW expW f e s
        (A.map some ++ List.replicate (expW.length - e) none) =
      (e + min (expW.length - e) (stW.length - s),
       s + min (expW.length - e) (stW.length - s),
       (A ++ ((stW.drop s).take (min (expW.length - e) (stW.length - s))).map iv).map some ++
         List.replicate (expW.length - (e + min (expW.length - e) (stW.length - s))) none) := by
  intro f
  induction f with
  | zero =>
    intro e s A hA he hf hs
    have hd : min (expW.length - e) (stW.length - s) = 0 := by omega
    rw [hd]
    simp only [List.take_zero, List.map_nil, List.append_nil, Nat.add_zero]
    rfl
  | succ f ih =>
    intro e s A hA he hf hs
    subst hA
    by_cases hc : A.length < expW.length ∧ s < stW.length
    · simp only [StableTs.alignLoop, if_pos hc, greedyStep_eq]
      have hset : (A.map some ++ List.replicate (expW.length - A.length) none).set A.length
          (some ⟨(stW.getD s dDT).start, (stW.getD s dDT).stop⟩) =
          (A ++ [iv (stW.getD s dDT)]).map some ++
            List.replicate (expW.length - (A.length + 1)) none := by
        have hrep : expW.length - A.length = (expW.length - (A.length + 1)) + 1 := by omega
        rw [hrep]
        exact set_append_some A _ _
      rw [hset]
      have hrec := ih (A.length + 1) (s + 1) (A ++ [iv (stW.getD s dDT)])
        (by simp) (by omega) (by omega) (by omega)
      simp only [List.length_append, List.length_cons, List.length_nil] at hrec
      rw [hrec]
      have hdrop : stW.drop s = stW.getD s dDT :: stW.drop (s + 1) := by
        rw [List.getD_eq_getElem stW dDT hc.2]
        exact List.drop_eq_getElem_cons hc.2
      have hd : min (expW.length - A.length) (stW.length - s) =
          min (expW.length - (A.length + 1)) (stW.length - (s + 1)) + 1 := by omega
      rw [hd, hdrop]
      simp only [List.take_succ_cons, List.map_cons, Prod.mk.injEq]
      refine ⟨by omega, by omega, ?_⟩
      have hcnt : expW.length - (A.length + 1 +
          min (expW.length - (A.length + 1)) (stW.length - (s + 1))) =
          expW.length - (A.length +
          (min (expW.length - (A.length + 1)) (stW.length - (s + 1)) + 1)) := by omega
      rw [hcnt]
      simp [List.append_assoc]
    · have hd : min (expW.length - A.length) (stW.length - s) = 0 := by omega
      rw [alignLoop_exit _ _ _ _ _ _ hc, hd]
      simp only [List.take_zero, List.map_nil, List.append_nil, Nat.add_zero]

theorem set_getElem_self {α : Type} : ∀ (l : List α) (i : ℕ) (v : α),
    l[i]? = some v → l.set i v = l := by
  intro l
  induction l with
  | nil => intro i v h; cases h
  | cons a t ih =>
    intro i v h
    cases i with
    | zero =>
      simp only [List.getElem?_cons_zero, Option.some.injEq] at h
      rw [← h]
      rfl
    | succ i =>
      simp only [List.getElem?_cons_succ] at h
      rw [List.set_cons_succ, ih i v h]

theorem fillLoop_exit (stW : List DT) (lenE f e s : ℕ) (ts : List (Option TS))
    (h : ¬ e < lenE) : StableTs.fillLoop stW lenE f e s ts = ts := by
  cases f with
  | zero => rfl
  | succ f => simp [StableTs.fillLoop, h]

theorem set_none_id (A : List TS) (K e : ℕ) (h : A.length ≤ e) :
    (A.map some ++ List.replicate K (none : Option TS)).set e none =
    A.map some ++ List.replicate K none := by
  by_cases h2 : e < A.length + K
  · apply set_getElem_self
    rw [List.getElem?_append_right (by simp; omega)]
    simp only [List.length_map]
    rw [List.getElem?_replicate]
    rw [if_pos (by omega)]
  · apply List.set_eq_of_length_le
    simp
    omega

theorem fillLoop_none (stW : List DT) (lenE : ℕ) :
    ∀ f e s (A : List TS) (K : ℕ), stW.length ≤ s → A.length ≤ e →
      StableTs.fillLoop stW lenE f e s (A.map some ++ List.replicate K none) =
      A.map some ++ List.replicate K none := by
  intro f
  induction f with
  | zero => intro e s A K hs hA; rfl
  | succ f ih =>
    intro e s A K hs hA
    by_cases he : e < lenE
    · have hns : ¬ s < stW.length := by omega
      simp only [StableTs.fillLoop, if_pos he, if_neg hns]
      rw [set_none_id A K e hA]
      exact ih (e + 1) s A K hs (by omega)
    · exact fillLoop_exit _ _ _ _ _ _ he

/-- Closed form of the trailing fill loop: it zips the remaining detected
intervals onto the remaining expected positions one-for-one and leaves the
rest unresolved. -/
theorem fillLoop_run (stW : List DT) (lenE : ℕ) :
    ∀ f e s A, A.length = e → e ≤ lenE → lenE - e ≤ f → s ≤ stW.length →
      StableTs.fillLoop stW lenE f e s
        (A.map some ++ List.replicate (lenE - e) none) =
      (A ++ ((stW.drop s).take (min (lenE - e) (stW.length - s))).map iv).map some ++
        List.replicate (lenE - (e + min (lenE - e) (stW.length - s))) none := by
  intro f
  induction f with
  | zero =>
    intro e s A hA he hf hs
    have hd : min (lenE - e) (stW.length - s) = 0 := by omega
    rw [hd]
    simp only [List.take_zero, List.map_nil, List.append_nil, Nat.add_zero]
    rfl
  | succ f ih =>
    intro e s A hA he hf hs
    subst hA
    by_cases he2 : A.length < lenE
    · by_cases hs2 : s < stW.length
      · simp only [StableTs.fillLoop, if_pos he2, if_pos hs2]
        have hset : (A.map some ++ List.replicate (lenE - A.length) none).set A.length
            (some ⟨(stW.getD s dDT).start, (stW.getD s dDT).stop⟩) =
            (A ++ [iv (stW.getD s dDT)]).map some ++
              List.replicate (lenE - (A.length + 1)) none := by
          have hrep : lenE - A.length = (lenE - (A.length + 1)) + 1 := by omega
          rw [hrep]
          exact set_append_some A _ _
        rw [hset]
        have hrec := ih (A.length + 1) (s + 1) (A ++ [iv (stW.getD s dDT)])
          (by simp) (by omega) (by omega) (by omega)
        simp only [List.length_append, List.length_cons, List.length_nil] at hrec
        rw [hrec]
        have hdrop : stW.drop s = stW.getD s dDT :: stW.drop (s + 1) := by
          rw [List.getD_eq_getElem stW dDT hs2]
          exact List.drop_eq_getElem_cons hs2
        have hd : min (lenE - A.length) (stW.length - s) =
            min (lenE - (A.length + 1)) (stW.length - (s + 1)) + 1 := by omega
        rw [hd, hdrop]
        simp only [List.take_succ_cons, List.map_cons]
        have hcnt : lenE - (A.length + 1 +
            min (lenE - (A.length + 1)) (stW.length - (s + 1))) =
            lenE - (A.length +
            (min (lenE - (A.length + 1)) (stW.length - (s + 1)) + 1)) := by omega
        rw [hcnt]
        simp [List.append_assoc]
      · have hd : min (lenE - A.length) (stW.length - s) = 0 := by omega
        rw [hd]
        simp only [List.take_zero, List.map_nil, List.append_nil, Nat.add_zero]
        simp only [StableTs.fillLoop, if_pos he2, if_neg hs2]
        rw [set_none_id A _ _ (le_refl _)]
        exact fillLoop_none stW lenE f (A.length + 1) s A _ (by omega) (by omega)
    · have hd : min (lenE - A.length) (stW.length - s) = 0 := by omega
      rw [fillLoop_exit _ _ _ _ _ _ he2, hd]
      simp only [List.take_zero, List.map_nil, List.append_nil, Nat.add_zero]

/-- End time of the last resolved entry before a position (p if none). -/
def lastStop (A : List TS) (p : ℚ) : ℚ :=
  match A.getLast? with
  | some t => t.stop
  | none => p

theorem lastStop_cons (a : TS) (A : List TS) (p : ℚ) :
    lastStop (a :: A) p = lastStop A a.stop := by
  cases A with
  | nil => rfl
  | cons b B =>
    unfold lastStop
    rw [List.getLast?_cons_cons]
    cases h : (b :: B).getLast? with
    | none => simp at h
    | some t => rfl

theorem fillGo_map_some (c : ℚ) :
    ∀ (A : List TS) (p : ℚ) (rest : List (Option TS)),
      fillGo c p 0 (A.map some ++ rest) = A ++ fillGo c (lastStop A p) 0 rest := by
  intro A
  induction A with
  | nil => intro p rest; rfl
  | cons a A ih =>
    intro p rest
    simp only [List.map_cons, List.cons_append]
    show emitRun p a.start 0 ++ a :: fillGo c a.stop 0 (A.map some ++ rest) = _
    rw [ih a.stop rest, lastStop_cons]
    rfl

theorem fillGo_replicate (c : ℚ) :
    ∀ (K : ℕ) (p : ℚ) (pend : ℕ) (B : List (Option TS)),
      fillGo c p pend (List.replicate K none ++ B) = fillGo c p (pend + K) B := by
  intro K
  induction K with
  | zero => intro p pend B; rfl
  | succ K ih =>
    intro p pend B
    simp only [List.replicate_succ, List.cons_append]
    show fillGo c p (pend + 1) (List.replicate K none ++ B) = _
    rw [ih p (pend + 1) B]
    congr 1
    omega

theorem fillGo_replicate_only (c : ℚ) (K : ℕ) (p : ℚ) (pend : ℕ) :
    fillGo c p pend (List.replicate K none) =
      emitRun p (p + c * ((pend + K : ℕ) : ℚ)) (pend + K) := by
  have h := fillGo_replicate c K p pend []
  rw [List.append_nil] at h
  rw [h]
  rfl

theorem emitRun_length (p n : ℚ) (k : ℕ) : (emitRun p n k).length = k := by
  unfold emitRun
  rw [List.length_map, List.length_range]

theorem emitRun_wf (p n : ℚ) (k : ℕ) (h : p ≤ n) :
    ∀ t ∈ emitRun p n k, t.start ≤ t.stop := by
  intro t ht
  unfold emitRun at ht
  rw [List.mem_map] at ht
  obtain ⟨i, -, hrw⟩ := ht
  subst hrw
  simp only
  apply round3_mono
  have hd : (0:ℚ) ≤ (n - p) / k := by
    apply div_nonneg (by linarith)
    exact_mod_cast Nat.zero_le k
  have : (i : ℚ) * ((n - p) / k) ≤ ((i : ℚ) + 1) * ((n - p) / k) := by
    apply mul_le_mul_of_nonneg_right _ hd
    linarith
  linarith

/-- Closed form of the full greedy pipeline: min(len expected, len detected)
detected intervals are copied one-for-one, and the unmatched tail of expected
tokens is extrapolated at 0.15s per token from the last copied end time. -/
theorem align_stable_closed (stW : List DT) (expW : List String)
    (hne : ¬ stW.isEmpty) :
    StableTs.align_stable_words_to_expected stW expW =
      (stW.take (min expW.length stW.length)).map iv ++
        emitRun (lastStop ((stW.take (min expW.length stW.length)).map iv) 0)
          (lastStop ((stW.take (min expW.length stW.length)).map iv) 0 +
            (15/100) * (expW.length - min expW.length stW.length : ℕ))
          (expW.length - min expW.length stW.length) := by
  unfold StableTs.align_stable_words_to_expected
  rw [if_neg hne]
  have hinit : (expW.map (fun _ => (none : Option TS))) =
      ([] : List TS).map some ++ List.replicate (expW.length - 0) none := by
    simp [List.map_const']
  rw [hinit]
  rw [alignLoop_run stW expW expW.length 0 0 [] rfl (by omega) (by omega) (by omega)]
  simp only [List.drop_zero, Nat.sub_zero, Nat.zero_add, List.nil_append]
  rw [fillLoop_run stW expW.length expW.length _ _ _ (by simp [min_le_right]) (by omega)
    (by omega) (by omega)]
  have hd0 : min (expW.length - min expW.length stW.length)
      (stW.length - min expW.length stW.length) = 0 := by omega
  rw [hd0]
  simp only [List.take_zero, List.map_nil, List.append_nil, Nat.add_zero]
  unfold StableTs.interpolate_gaps
  rw [fillGo_map_some]
  rw [fillGo_replicate_only]
  rw [Nat.zero_add]

/-- Claim C1 (amended): provided every detected token is a well-formed
interval (start ≤ end), the greedy pipeline returns exactly one timestamp per
expected token — the output length equals the number of expected tokens and no
entry is left unresolved — and every output entry satisfies end ≥ start.
(The original claim quantified over all detected lists; it fails when a
detected token itself has end < start, see the counterexample.) -/
theorem C1_completeness (stW : List DT) (expW : List String)
    (hwf : ∀ w ∈ stW, w.start ≤ w.stop) :
    (StableTs.align_stable_words_to_expected stW expW).length = expW.length ∧
    ∀ t ∈ StableTs.align_stable_words_to_expected stW expW, t.start ≤ t.stop := by
  by_cases hne : stW.isEmpty
  · unfold StableTs.align_stable_words_to_expected
    rw [if_pos hne]
    constructor
    · exact List.length_map expW _
    · intro t ht
      rw [List.mem_map] at ht
      obtain ⟨-, -, hrw⟩ := ht
      rw [← hrw]
  · rw [align_stable_closed stW expW hne]
    constructor
    · rw [List.length_append, List.length_map, emitRun_length, List.length_take]
      omega
    · intro t ht
      rw [List.mem_append] at ht
      rcases ht with ht | ht
      · rw [List.mem_map] at ht
        obtain ⟨w, hw, hrw⟩ := ht
        rw [← hrw]
        exact hwf w (List.mem_of_mem_take hw)
      · refine emitRun_wf _ _ _ ?_ t ht
        have : (0:ℚ) ≤ (15/100) * ((expW.length - min expW.length stW.length : ℕ) : ℚ) := by
          apply mul_nonneg (by norm_num)
          exact_mod_cast Nat.zero_le _
        linarith

/-- Claim C1 witness: a concrete well-formed input. -/
theorem C1_completeness_w :
    (StableTs.align_stable_words_to_expected [⟨"a", 0, 1⟩] ["a"]).length = 1 ∧
    (⟨0, 1⟩ : TS).start ≤ (⟨0, 1⟩ : TS).stop := by
  have h := C1_completeness [⟨"a", 0, 1⟩] ["a"] (by
    intro w hw
    rw [List.mem_singleton] at hw
    subst hw
    norm_num)
  refine ⟨h.1, ?_⟩
  apply h.2
  have heval : StableTs.align_stable_words_to_expected [⟨"a", 0, 1⟩] ["a"] = [⟨0, 1⟩] := by
    simp +decide only [StableTs.align_stable_words_to_expected, StableTs.alignLoop,
      StableTs.greedyStep, StableTs.normalize, StableTs.findSpanSt, StableTs.findSpanExp,
      StableTs.fillLoop, StableTs.interpolate_gaps, fillGo, emitRun,
      List.set, List.getD, List.drop, List.map, List.filter, List.foldl, List.range,
      List.range.loop, List.isEmpty, List.append]
  rw [heval]
  exact List.mem_singleton.mpr rfl

/-- Claim C1 counterexample: with a detected token whose interval is reversed
the matcher copies it verbatim, so the output entry has end < start and the
unamended claim is false. -/
theorem C1_completeness_cex :
    StableTs.align_stable_words_to_expected [⟨"a", 1, 0⟩] ["a"] = [⟨1, 0⟩] ∧
    ¬ ((1:ℚ) ≤ 0) := by
  constructor
  · simp +decide only [StableTs.align_stable_words_to_expected, StableTs.alignLoop,
      StableTs.greedyStep, StableTs.normalize, StableTs.findSpanSt, StableTs.findSpanExp,
      StableTs.fillLoop, StableTs.interpolate_gaps, fillGo, emitRun,
      List.set, List.getD, List.drop, List.map, List.filter, List.foldl, List.range,
      List.range.loop, List.isEmpty, List.append]
  · norm_num

theorem dpAdd_some (v s : ℤ) : WhisperX.dpAdd (some v) s = some (v + s) := rfl

theorem oMax_le_of {a b : Option ℤ} {c : ℤ}
    (ha : ∀ v, a = some v → v ≤ c) (hb : ∀ v, b = some v → v ≤ c) :
    ∀ v, WhisperX.oMax a b = some v → v ≤ c := by
  cases a with
  | none =>
    cases b with
    | none => intro v h; cases h
    | some y => intro v h; simp [WhisperX.oMax] at h; subst h; exact hb y rfl
  | some x =>
    cases b with
    | none => intro v h; simp [WhisperX.oMax] at h; subst h; exact ha x rfl
    | some y =>
      intro v h
      simp [WhisperX.oMax] at h
      subst h
      exact max_le (ha x rfl) (hb y rfl)

theorem oMax_left {x : ℤ} {b : Option ℤ}
    (hb : ∀ v, b = some v → v ≤ x) : WhisperX.oMax (some x) b = some x := by
  cases b with
  | none => rfl
  | some y =>
    simp only [WhisperX.oMax, Option.some.injEq]
    exact max_eq_left (hb y rfl)

theorem score_le (dW : List DT) (eW : List String) (i j : ℕ) :
    WhisperX.score dW eW i j ≤ 2 := by
  unfold WhisperX.score
  dsimp only
  split
  · norm_num [WhisperX.MATCH]
  · split
    · norm_num [WhisperX.MATCH]
    · norm_num [WhisperX.MISMATCH]

theorem dpRow0_eq (j : ℕ) : WhisperX.dpRow0 j = some (-(j : ℤ)) := by
  induction j with
  | zero => rfl
  | succ j ih =>
    show WhisperX.dpAdd (WhisperX.dpRow0 j) WhisperX.GAP = _
    rw [ih, dpAdd_some]
    congr 1
    unfold WhisperX.GAP
    push_cast
    ring

theorem dpCol0_eq (dW : List DT) (eW : List String) (i : ℕ) :
    WhisperX.dpRowN dW eW i 0 = some (-(i : ℤ)) := by
  induction i with
  | zero => rfl
  | succ i ih =>
    show WhisperX.dpAdd (WhisperX.dpRowN dW eW i 0) WhisperX.GAP = _
    rw [ih, dpAdd_some]
    congr 1
    unfold WhisperX.GAP
    push_cast
    ring

/-- Upper bound on any reachable dp value: at most 2 per diagonal step minus 1
per unavoidable gap. -/
theorem dp_le (dW : List DT) (eW : List String) :
    ∀ i j v, WhisperX.dpRowN dW eW i j = some v →
      v ≤ 2 * (min i j : ℤ) - ((i : ℤ) - j).natAbs := by
  intro i
  induction i with
  | zero =>
    intro j v h
    rw [show WhisperX.dpRowN dW eW 0 j = WhisperX.dpRow0 j from rfl, dpRow0_eq] at h
    injection h with h
    subst h
    omega
  | succ i ih =>
    intro j
    induction j with
    | zero =>
      intro v h
      rw [dpCol0_eq] at h
      injection h with h
      subst h
      omega
    | succ j ihj =>
      intro v h
      rw [show WhisperX.dpRowN dW eW (i + 1) (j + 1) =
        WhisperX.dpRowAux dW eW (WhisperX.dpRowN dW eW i) (i + 1) (j + 1) from rfl] at h
      unfold WhisperX.dpRowAux at h
      split at h
      · refine oMax_le_of (oMax_le_of ?_ ?_) ?_ v h
        · intro v2 h2
          rcases hprev : WhisperX.dpRowN dW eW i j with _ | w
          · rw [hprev] at h2; cases h2
          · rw [hprev, dpAdd_some] at h2
            injection h2 with h2
            subst h2
            have hb := ih j w hprev
            have hs := score_le dW eW (i + 1) (j + 1)
            omega
        · intro v2 h2
          rcases hprev : WhisperX.dpRowN dW eW i (j + 1) with _ | w
          · rw [hprev] at h2; cases h2
          · rw [hprev, dpAdd_some] at h2
            injection h2 with h2
            subst h2
            have hb := ih (j + 1) w hprev
            unfold WhisperX.GAP
            omega
        · intro v2 h2
          rcases hprev : WhisperX.dpRowAux dW eW (WhisperX.dpRowN dW eW i) (i + 1) j
            with _ | w
          · rw [hprev] at h2; cases h2
          · rw [hprev, dpAdd_some] at h2
            injection h2 with h2
            subst h2
            have hb := ihj w hprev
            unfold WhisperX.GAP
            omega
      · cases h

theorem word_getD (dW : List DT) (eW : List String) (hw : dW.map DT.word = eW)
    (i : ℕ) (h : i < dW.length) : (dW.getD i dDT).word = eW.getD i "" := by
  subst hw
  rw [List.getD_eq_getElem dW dDT h]
  rw [List.getD_eq_getElem _ _ (by simpa using h)]
  rw [List.getElem_map]

theorem score_self (dW : List DT) (eW : List String) (hw : dW.map DT.word = eW)
    (i : ℕ) (h : i < dW.length) : WhisperX.score dW eW (i + 1) (i + 1) = 2 := by
  unfold WhisperX.score
  dsimp only
  rw [Nat.add_sub_cancel, word_getD dW eW hw i h, if_pos rfl]
  rfl

theorem diagJ_self (i N : ℕ) (hN : 0 < N) : WhisperX.diagJ i N N = (i : ℤ) := by
  unfold WhisperX.diagJ
  rw [if_pos hN]
  have hN2 : (N : ℚ) ≠ 0 := by exact_mod_cast hN.ne.symm
  have h1 : (i : ℚ) * (N : ℚ) / (N : ℚ) = (((i : ℕ) : ℤ) : ℚ) := by
    push_cast
    field_simp
  rw [h1, rhe_intCast]

theorem inBand_diag (N i : ℕ) (h1 : 1 ≤ i) (h2 : i ≤ N) :
    WhisperX.inBand N N i i = true := by
  unfold WhisperX.inBand
  rw [decide_eq_true_eq]
  rw [diagJ_self i N (by omega)]
  omega

theorem dp_diag (dW : List DT) (eW : List String) (hw : dW.map DT.word = eW)
    (hlen : dW.length = eW.length) :
    ∀ i, i ≤ eW.length → WhisperX.dpRowN dW eW i i = some (2 * (i : ℤ)) := by
  intro i
  induction i with
  | zero =>
    intro _
    show some 0 = _
    norm_num
  | succ i ih =>
    intro h
    show WhisperX.dpRowAux dW eW (WhisperX.dpRowN dW eW i) (i + 1) (i + 1) =
      some (2 * ((i : ℤ) + 1))
    unfold WhisperX.dpRowAux
    rw [hlen, if_pos (inBand_diag eW.length (i + 1) (by omega) h)]
    rw [ih (by omega), score_self dW eW hw i (by omega), dpAdd_some]
    have hInner : WhisperX.oMax (some (2 * (i : ℤ) + 2))
        (WhisperX.dpAdd (WhisperX.dpRowN dW eW i (i + 1)) WhisperX.GAP) =
        some (2 * (i : ℤ) + 2) := by
      apply oMax_left
      intro v hv
      rcases hp : WhisperX.dpRowN dW eW i (i + 1) with _ | w
      · rw [hp] at hv; cases hv
      · rw [hp, dpAdd_some] at hv
        injection hv with hv
        have := dp_le dW eW i (i + 1) w hp
        unfold WhisperX.GAP at hv
        omega
    rw [hInner]
    have hOuter : WhisperX.oMax (some (2 * (i : ℤ) + 2))
        (WhisperX.dpAdd (WhisperX.dpRowAux dW eW (WhisperX.dpRowN dW eW i) (i + 1) i)
          WhisperX.GAP) = some (2 * (i : ℤ) + 2) := by
      apply oMax_left
      intro v hv
      rcases hp : WhisperX.dpRowAux dW eW (WhisperX.dpRowN dW eW i) (i + 1) i with _ | w
      · rw [hp] at hv; cases hv
      · rw [hp, dpAdd_some] at hv
        injection hv with hv
        have := dp_le dW eW (i + 1) i w hp
        unfold WhisperX.GAP at hv
        omega
    rw [hOuter]
    congr 1

theorem bt_diag (dW : List DT) (eW : List String) (hw : dW.map DT.word = eW)
    (hlen : dW.length = eW.length) :
    ∀ i, i + 1 ≤ eW.length → WhisperX.btCell dW eW (i + 1) (i + 1) = 0 := by
  intro i h
  have hd : WhisperX.dpDiag dW eW (i + 1) (i + 1) = some (2 * ((i : ℤ)) + 2) := by
    unfold WhisperX.dpDiag WhisperX.dpCell
    rw [Nat.add_sub_cancel]
    rw [dp_diag dW eW hw hlen i (by omega), score_self dW eW hw i (by omega), dpAdd_some]
  have hu : ∀ v, WhisperX.dpUp dW eW (i + 1) (i + 1) = some v →
      v ≤ 2 * ((i : ℤ)) + 2 := by
    intro v hv
    unfold WhisperX.dpUp WhisperX.dpCell at hv
    rw [Nat.add_sub_cancel] at hv
    rcases hp : WhisperX.dpRowN dW eW i (i + 1) with _ | w
    · rw [hp] at hv; cases hv
    · rw [hp, dpAdd_some] at hv
      injection hv with hv
      have := dp_le dW eW i (i + 1) w hp
      unfold WhisperX.GAP at hv
      omega
  have hl : ∀ v, WhisperX.dpLeft dW eW (i + 1) (i + 1) = some v →
      v ≤ 2 * ((i : ℤ)) + 2 := by
    intro v hv
    unfold WhisperX.dpLeft WhisperX.dpCell at hv
    rw [Nat.add_sub_cancel] at hv
    rcases hp : WhisperX.dpRowN dW eW (i + 1) i with _ | w
    · rw [hp] at hv; cases hv
    · rw [hp, dpAdd_some] at hv
      injection hv with hv
      have := dp_le dW eW (i + 1) i w hp
      unfold WhisperX.GAP at hv
      omega
  simp only [WhisperX.btCell]
  rw [hlen, if_pos (inBand_diag eW.length (i + 1) (by omega) h)]
  rw [hd, oMax_left hu, oMax_left hl, if_pos rfl]

theorem walk_diag (dW : List DT) (eW : List String) (hw : dW.map DT.word = eW)
    (hlen : dW.length = eW.length) :
    ∀ k, k ≤ eW.length →
      WhisperX.walkRowN dW eW k k = (List.range k).map (fun t => (t, some t)) := by
  intro k
  induction k with
  | zero => intro _; rfl
  | succ k ih =>
    intro h
    show WhisperX.walkAux dW eW (WhisperX.walkRowN dW eW k) (k + 1) (k + 1) = _
    unfold WhisperX.walkAux
    rw [bt_diag dW eW hw hlen k h, if_pos rfl]
    rw [ih (by omega)]
    rw [List.range_succ, List.map_append]
    rfl

/-- Claim C2: on an input whose detected tokens equal the expected tokens
one-for-one in order (with well-formed, ordered, non-overlapping intervals),
the Greedy Window Matcher assigns each expected token exactly its same-index
detected interval, and the Global DP Aligner returns the identity pairing. -/
theorem C2_identity_alignment (dW : List DT) (eW : List String)
    (hw : dW.map DT.word = eW)
    (hts : (∀ w ∈ dW, w.start < w.stop) ∧
      ∀ i, i + 1 < dW.length → (dW.getD i dDT).stop ≤ (dW.getD (i + 1) dDT).start) :
    StableTs.align_stable_words_to_expected dW eW = dW.map iv ∧
    WhisperX.align_words_dp dW eW = (List.range eW.length).map (fun t => (t, some t)) := by
  have hlen : dW.length = eW.length := by
    rw [← hw, List.length_map]
  constructor
  · by_cases hne : dW.isEmpty
    · unfold StableTs.align_stable_words_to_expected
      rw [if_pos hne]
      rw [List.isEmpty_iff] at hne
      subst hne
      simp only [List.map_nil] at hw ⊢
      rw [← hw]
      rfl
    · rw [align_stable_closed dW eW hne]
      have hmin : min eW.length dW.length = dW.length := by omega
      rw [hmin]
      rw [List.take_length]
      have hk : eW.length - dW.length = 0 := by omega
      rw [hk]
      simp [emitRun]
  · unfold WhisperX.align_words_dp
    rw [hlen]
    exact walk_diag dW eW hw hlen eW.length (le_refl _)

/-- Claim C2 witness: a concrete identity input. -/
theorem C2_identity_alignment_w :
    StableTs.align_stable_words_to_expected
      [⟨"a", 0, 1⟩, ⟨"b", 2, 3⟩] ["a", "b"] = [⟨0, 1⟩, ⟨2, 3⟩] ∧
    WhisperX.align_words_dp [⟨"a", 0, 1⟩, ⟨"b", 2, 3⟩] ["a", "b"] =
      [(0, some 0), (1, some 1)] := by
  have h := C2_identity_alignment [⟨"a", 0, 1⟩, ⟨"b", 2, 3⟩] ["a", "b"]
    (by decide)
    (by
      constructor
      · intro w hmem
        simp only [List.mem_cons, List.not_mem_nil, or_false] at hmem
        rcases hmem with rfl | rfl
        · norm_num
        · norm_num
      · intro i hi
        simp only [List.length_cons, List.length_nil] at hi
        have hi0 : i = 0 := by omega
        subst hi0
        show (1:ℚ) ≤ 2
        norm_num)
  refine ⟨?_, ?_⟩
  · rw [h.1]
    rfl
  · rw [h.2]
    rfl

theorem emitRun_getElem (p n : ℚ) (k i : ℕ) (h : i < k) :
    (emitRun p n k)[i]? =
      some ⟨round3 (p + (i : ℚ) * ((n - p) / k)),
            round3 (p + ((i : ℚ) + 1) * ((n - p) / k))⟩ := by
  unfold emitRun
  rw [List.getElem?_map, List.getElem?_range h]
  rfl

/-- The right boundary the scan uses for a run: the next resolved start, or
p + c * k at the end of the array. -/
def runBoundary (c p : ℚ) (k : ℕ) (B : List TS) : ℚ :=
  match B.head? with
  | some u => u.start
  | none => p + c * k

/-- General interpolation formula: on an array whose unresolved entries form a
single maximal run of length k between fully resolved blocks A and B, the scan
assigns the i-th entry of the run start = p + i*(n-p)/k and end =
p + (i+1)*(n-p)/k rounded to 3 decimals, with p the previous resolved end (0
if none) and n the run boundary. -/
theorem fillGo_run_formula (c : ℚ) (A B : List TS) (k i : ℕ) (hi : i < k) :
    (fillGo c 0 0 (A.map some ++ (List.replicate k none ++ B.map some)))[A.length + i]? =
      some ⟨round3 (lastStop A 0 + (i : ℚ) *
              ((runBoundary c (lastStop A 0) k B - lastStop A 0) / k)),
            round3 (lastStop A 0 + ((i : ℚ) + 1) *
              ((runBoundary c (lastStop A 0) k B - lastStop A 0) / k))⟩ := by
  rw [fillGo_map_some, fillGo_replicate, Nat.zero_add]
  cases B with
  | nil =>
    show (A ++ fillGo c (lastStop A 0) k [])[A.length + i]? = _
    rw [List.getElem?_append_right (Nat.le_add_right _ _), Nat.add_sub_cancel_left]
    show (emitRun (lastStop A 0) (lastStop A 0 + c * k) k)[i]? = _
    rw [emitRun_getElem _ _ k i hi]
    rfl
  | cons u B2 =>
    show (A ++ fillGo c (lastStop A 0) k (some u :: B2.map some))[A.length + i]? = _
    rw [List.getElem?_append_right (Nat.le_add_right _ _), Nat.add_sub_cancel_left]
    show (emitRun (lastStop A 0) u.start k ++
      u :: fillGo c u.stop 0 (B2.map some))[i]? = _
    rw [List.getElem?_append_left (by rw [emitRun_length]; exact hi)]
    rw [emitRun_getElem _ _ k i hi]
    rfl

/-- Claim C4 (amended): for every timestamp array whose unresolved entries
form a single maximal run of length k bounded by a previous resolved end p
(0 if none) and a next resolved start n, both interpolators assign the i-th
entry of the run start = p + i*(n-p)/k and end = p + (i+1)*(n-p)/k up to
3-decimal rounding; when no resolved entry follows the run, the stable-ts
interpolator uses n = p + 0.15*k while the whisperx interpolator uses
n = p + 0.1*k (not 0.15 as the claim stated; see the counterexample). -/
theorem C4_interpolation (A B : List TS) (k i : ℕ) (hk : 0 < k) (hi : i < k) :
    (StableTs.interpolate_gaps
        (A.map some ++ (List.replicate k none ++ B.map some)))[A.length + i]? =
      some ⟨round3 (lastStop A 0 + (i : ℚ) *
              ((runBoundary (15/100) (lastStop A 0) k B - lastStop A 0) / k)),
            round3 (lastStop A 0 + ((i : ℚ) + 1) *
              ((runBoundary (15/100) (lastStop A 0) k B - lastStop A 0) / k))⟩ ∧
    (WhisperX.interpolate_gap_fill
        (A.map some ++ (List.replicate k none ++ B.map some)))[A.length + i]? =
      some ⟨round3 (lastStop A 0 + (i : ℚ) *
              ((runBoundary (1/10) (lastStop A 0) k B - lastStop A 0) / k)),
            round3 (lastStop A 0 + ((i : ℚ) + 1) *
              ((runBoundary (1/10) (lastStop A 0) k B - lastStop A 0) / k))⟩ :=
  ⟨fillGo_run_formula (15/100) A B k i hi, fillGo_run_formula (1/10) A B k i hi⟩

/-- Claim C4 witness: a run of length one at the end of the array, after one
resolved entry. -/
theorem C4_interpolation_w :
    (StableTs.interpolate_gaps [some ⟨0, 1⟩, none])[1]? = some ⟨1, 23/20⟩ ∧
    (WhisperX.interpolate_gap_fill [some ⟨0, 1⟩, none])[1]? = some ⟨1, 11/10⟩ := by
  have h := C4_interpolation [⟨0, 1⟩] [] 1 0 (by decide) (by decide)
  simp only [List.map_cons, List.map_nil, List.replicate_one, List.cons_append,
    List.nil_append, List.append_nil, List.length_cons, List.length_nil] at h
  norm_num [lastStop, runBoundary, round3, rhe] at h
  exact h

/-- Claim C4 counterexample: with no resolved entry after the run the
whisperx interpolator extends at 0.1 seconds per token, not the claimed
0.15: the entry after [0, 1] becomes [1, 1.1], not [1, 1.15]. -/
theorem C4_interpolation_cex :
    WhisperX.interpolate_gap_fill [some ⟨0, 1⟩, none] = [⟨0, 1⟩, ⟨1, 11/10⟩] ∧
    (⟨1, 11/10⟩ : TS) ≠ ⟨1, 23/20⟩ := by
  constructor
  · norm_num [WhisperX.interpolate_gap_fill, fillGo, emitRun, List.range,
      List.range.loop, round3, rhe]
  · intro h
    have h2 := congrArg TS.stop h
    norm_num at h2

theorem diagJ_nonneg (i m n : ℕ) : 0 ≤ WhisperX.diagJ i m n := by
  unfold WhisperX.diagJ
  split
  · have h0 : (0:ℤ) = rhe ((0:ℤ) : ℚ) := (rhe_intCast 0).symm
    rw [h0]
    push_cast
    apply rhe_mono
    positivity
  · positivity

theorem diagJ_le (i m n : ℕ) (hin : i ≤ n) (hn : 0 < n) :
    WhisperX.diagJ i m n ≤ (m : ℤ) := by
  unfold WhisperX.diagJ
  rw [if_pos hn]
  have hm : ((m : ℤ) : ℚ) = (m : ℚ) := by push_cast; rfl
  have h2 : (i : ℚ) * (m : ℚ) / (n : ℚ) ≤ ((m : ℤ) : ℚ) := by
    rw [hm, div_le_iff (by exact_mod_cast hn)]
    have hi : (i : ℚ) ≤ (n : ℚ) := by exact_mod_cast hin
    have hm0 : (0:ℚ) ≤ (m : ℚ) := by positivity
    nlinarith
  calc rhe ((i : ℚ) * (m : ℚ) / (n : ℚ)) ≤ rhe (((m : ℤ) : ℚ)) := rhe_mono h2
    _ = (m : ℤ) := rhe_intCast m

theorem inBand_all (m n i j : ℕ) (hbw : m ≤ WhisperX.bandwidth m)
    (hi1 : 1 ≤ i) (hin : i ≤ n) (hj1 : 1 ≤ j) (hjm : j ≤ m) :
    WhisperX.inBand m n i j = true := by
  unfold WhisperX.inBand
  rw [decide_eq_true_eq]
  have h1 := diagJ_nonneg i m n
  have h2 := diagJ_le i m n hin (by omega)
  omega

theorem dp_band_eq (dW : List DT) (eW : List String)
    (hbw : eW.length ≤ WhisperX.bandwidth eW.length) :
    ∀ i, i ≤ dW.length → ∀ j, j ≤ eW.length →
      WhisperX.dpRowN dW eW i j = WhisperX.dpRowNU dW eW i j := by
  intro i
  induction i with
  | zero => intro _ j _; rfl
  | succ i ih =>
    intro hi j
    induction j with
    | zero =>
      intro _
      show WhisperX.dpAdd (WhisperX.dpRowN dW eW i 0) WhisperX.GAP =
        WhisperX.dpAdd (WhisperX.dpRowNU dW eW i 0) WhisperX.GAP
      rw [ih (by omega) 0 (by omega)]
    | succ j ihj =>
      intro hj
      show WhisperX.dpRowAux dW eW (WhisperX.dpRowN dW eW i) (i + 1) (j + 1) =
        WhisperX.dpRowAuxU dW eW (WhisperX.dpRowNU dW eW i) (i + 1) (j + 1)
      unfold WhisperX.dpRowAux WhisperX.dpRowAuxU
      rw [if_pos (inBand_all eW.length dW.length (i + 1) (j + 1) hbw
        (by omega) hi (by omega) hj)]
      rw [ih (by omega) j (by omega), ih (by omega) (j + 1) hj]
      have hinner := ihj (by omega)
      rw [show WhisperX.dpRowN dW eW (i + 1) j =
        WhisperX.dpRowAux dW eW (WhisperX.dpRowN dW eW i) (i + 1) j from rfl] at hinner
      rw [show WhisperX.dpRowNU dW eW (i + 1) j =
        WhisperX.dpRowAuxU dW eW (WhisperX.dpRowNU dW eW i) (i + 1) j from rfl] at hinner
      rw [hinner]

theorem bt_band_eq (dW : List DT) (eW : List String)
    (hbw : eW.length ≤ WhisperX.bandwidth eW.length) :
    ∀ i, i ≤ dW.length → ∀ j, j ≤ eW.length →
      WhisperX.btCell dW eW i j = WhisperX.btCellU dW eW i j := by
  intro i hi j hj
  match i, hi, j, hj with
  | 0, _, 0, _ => rfl
  | i + 1, hi, 0, _ => rfl
  | 0, _, j + 1, _ => rfl
  | i + 1, hi, j + 1, hj =>
    simp only [WhisperX.btCell, WhisperX.btCellU]
    rw [if_pos (inBand_all eW.length dW.length (i + 1) (j + 1) hbw
      (by omega) hi (by omega) hj)]
    unfold WhisperX.dpDiag WhisperX.dpUp WhisperX.dpLeft WhisperX.dpCell WhisperX.dpCellU
    simp only [Nat.add_sub_cancel]
    rw [dp_band_eq dW eW hbw i (by omega) j (by omega),
      dp_band_eq dW eW hbw i (by omega) (j + 1) hj,
      dp_band_eq dW eW hbw (i + 1) hi j (by omega)]

theorem walk_band_eq (dW : List DT) (eW : List String)
    (hbw : eW.length ≤ WhisperX.bandwidth eW.length) :
    ∀ i, i ≤ dW.length → ∀ j, j ≤ eW.length →
      WhisperX.walkRowN dW eW i j = WhisperX.walkRowNU dW eW i j := by
  intro i
  induction i with
  | zero => intro _ j _; rfl
  | succ i ih =>
    intro hi j
    induction j with
    | zero =>
      intro _
      show WhisperX.walkRowN dW eW i 0 = WhisperX.walkRowNU dW eW i 0
      exact ih (by omega) 0 (by omega)
    | succ j ihj =>
      intro hj
      show WhisperX.walkAux dW eW (WhisperX.walkRowN dW eW i) (i + 1) (j + 1) =
        WhisperX.walkAuxU dW eW (WhisperX.walkRowNU dW eW i) (i + 1) (j + 1)
      unfold WhisperX.walkAux WhisperX.walkAuxU
      rw [bt_band_eq dW eW hbw (i + 1) hi (j + 1) hj]
      by_cases h0 : WhisperX.btCellU dW eW (i + 1) (j + 1) = 0
      · rw [if_pos h0, if_pos h0, ih (by omega) j (by omega)]
      · rw [if_neg h0, if_neg h0]
        by_cases h1 : WhisperX.btCellU dW eW (i + 1) (j + 1) = 1
        · rw [if_pos h1, if_pos h1, ih (by omega) (j + 1) hj]
        · rw [if_neg h1, if_neg h1]
          have hinner := ihj (by omega)
          rw [show WhisperX.walkRowN dW eW (i + 1) j =
            WhisperX.walkAux dW eW (WhisperX.walkRowN dW eW i) (i + 1) j from rfl] at hinner
          rw [show WhisperX.walkRowNU dW eW (i + 1) j =
            WhisperX.walkAuxU dW eW (WhisperX.walkRowNU dW eW i) (i + 1) j from rfl] at hinner
          rw [hinner]

/-- Claim C5: when the expected-token count m satisfies bandwidth >= m, the
band of every row covers every column 1..m (every cell is evaluated) and the
banded aligner returns exactly the same alignment-pair list as the unbanded
dynamic program with the same scoring. -/
theorem C5_banding (dW : List DT) (eW : List String)
    (hbw : eW.length ≤ WhisperX.bandwidth eW.length) :
    (∀ i j, 1 ≤ i → i ≤ dW.length → 1 ≤ j → j ≤ eW.length →
      WhisperX.inBand eW.length dW.length i j = true) ∧
    WhisperX.align_words_dp dW eW = WhisperX.align_words_dp_unbanded dW eW := by
  constructor
  · intro i j h1 h2 h3 h4
    exact inBand_all eW.length dW.length i j hbw h1 h2 h3 h4
  · exact walk_band_eq dW eW hbw dW.length (le_refl _) eW.length (le_refl _)

/-- Claim C5 witness: a one-token instance, bandwidth 1 ≥ m = 1. -/
theorem C5_banding_w :
    WhisperX.inBand 1 1 1 1 = true ∧
    WhisperX.align_words_dp [⟨"a", 0, 1⟩] ["b"] =
      WhisperX.align_words_dp_unbanded [⟨"a", 0, 1⟩] ["b"] := by
  refine ⟨?_, (C5_banding [⟨"a", 0, 1⟩] ["b"] (by decide)).2⟩
  exact (C5_banding [⟨"a", 0, 1⟩] ["b"] (by decide)).1 1 1 (by decide) (by decide)
    (by decide) (by decide)

theorem oMax_eq_or (a b : Option ℤ) : WhisperX.oMax a b = a ∨ WhisperX.oMax a b = b := by
  cases a with
  | none =>
    cases b with
    | none => left; rfl
    | some y => right; rfl
  | some x =>
    cases b with
    | none => left; rfl
    | some y =>
      rcases max_choice x y with h | h
      · left
        simp [WhisperX.oMax, h]
      · right
        simp [WhisperX.oMax, h]

theorem walk_emits_steps (dW : List DT) (eW : List String) :
    ∀ i j, WhisperX.walkRowN dW eW i j =
      ((WhisperX.stepsRowN dW eW i j).map WhisperX.emitStep).flatten := by
  intro i
  induction i with
  | zero =>
    intro j
    induction j with
    | zero => rfl
    | succ j ihj =>
      have h1 : WhisperX.walkRowN dW eW 0 (j + 1) =
          WhisperX.walkRowN dW eW 0 j ++ [(j, none)] := rfl
      have h2 : WhisperX.stepsRowN dW eW 0 (j + 1) =
          WhisperX.stepsRowN dW eW 0 j ++ [(0, j + 1, 2)] := rfl
      rw [h1, h2, List.map_append, List.flatten_append, ihj]
      rfl
  | succ i ih =>
    intro j
    induction j with
    | zero =>
      have h1 : WhisperX.walkRowN dW eW (i + 1) 0 = WhisperX.walkRowN dW eW i 0 := rfl
      have h2 : WhisperX.stepsRowN dW eW (i + 1) 0 =
          WhisperX.stepsRowN dW eW i 0 ++ [(i + 1, 0, 1)] := rfl
      rw [h1, h2, List.map_append, List.flatten_append, ih 0]
      simp [WhisperX.emitStep]
    | succ j ihj =>
      show WhisperX.walkAux dW eW (WhisperX.walkRowN dW eW i) (i + 1) (j + 1) =
        ((WhisperX.stepsAux dW eW (WhisperX.stepsRowN dW eW i) (i + 1) (j + 1)).map
          WhisperX.emitStep).flatten
      unfold WhisperX.walkAux WhisperX.stepsAux
      by_cases h0 : WhisperX.btCell dW eW (i + 1) (j + 1) = 0
      · rw [if_pos h0, if_pos h0]
        rw [List.map_append, List.flatten_append, ih j]
        rfl
      · rw [if_neg h0, if_neg h0]
        by_cases h1 : WhisperX.btCell dW eW (i + 1) (j + 1) = 1
        · rw [if_pos h1, if_pos h1]
          rw [List.map_append, List.flatten_append, ih (j + 1)]
          simp [WhisperX.emitStep]
        · rw [if_neg h1, if_neg h1]
          rw [List.map_append, List.flatten_append]
          rw [show WhisperX.walkAux dW eW (WhisperX.walkRowN dW eW i) (i + 1) j =
            WhisperX.walkRowN dW eW (i + 1) j from rfl]
          rw [show WhisperX.stepsAux dW eW (WhisperX.stepsRowN dW eW i) (i + 1) j =
            WhisperX.stepsRowN dW eW (i + 1) j from rfl]
          rw [ihj]
          rfl

/-- Claim C6: at every evaluated cell the recorded choice prefers the diagonal
over skip-detected over skip-expected whenever several moves attain the
maximum (the recorded choice is diagonal exactly when the diagonal attains the
maximum; skip-detected exactly when it attains the maximum and the diagonal
does not; skip-expected only when neither does, and then skip-expected attains
it); and the backtrack walk emits one pair (j-1, i-1) per diagonal step, one
pair (j-1, none) per skip-expected step, and nothing for skip-detected steps. -/
theorem C6_tiebreak_backtrack (dW : List DT) (eW : List String) :
    (∀ i j, 1 ≤ i → 1 ≤ j →
      WhisperX.inBand eW.length dW.length i j = true →
      ((WhisperX.btCell dW eW i j = 0 ↔
        WhisperX.oMax (WhisperX.oMax (WhisperX.dpDiag dW eW i j) (WhisperX.dpUp dW eW i j))
          (WhisperX.dpLeft dW eW i j) = WhisperX.dpDiag dW eW i j) ∧
       (WhisperX.btCell dW eW i j = 1 ↔
        (¬ WhisperX.oMax (WhisperX.oMax (WhisperX.dpDiag dW eW i j) (WhisperX.dpUp dW eW i j))
          (WhisperX.dpLeft dW eW i j) = WhisperX.dpDiag dW eW i j ∧
         WhisperX.oMax (WhisperX.oMax (WhisperX.dpDiag dW eW i j) (WhisperX.dpUp dW eW i j))
          (WhisperX.dpLeft dW eW i j) = WhisperX.dpUp dW eW i j)) ∧
       (WhisperX.btCell dW eW i j = 2 →
        WhisperX.oMax (WhisperX.oMax (WhisperX.dpDiag dW eW i j) (WhisperX.dpUp dW eW i j))
          (WhisperX.dpLeft dW eW i j) = WhisperX.dpLeft dW eW i j))) ∧
    (∀ i j, WhisperX.walkRowN dW eW i j =
      ((WhisperX.stepsRowN dW eW i j).map WhisperX.emitStep).flatten) ∧
    WhisperX.align_words_dp dW eW =
      ((WhisperX.stepsRowN dW eW dW.length eW.length).map WhisperX.emitStep).flatten := by
  refine ⟨?_, walk_emits_steps dW eW, walk_emits_steps dW eW dW.length eW.length⟩
  intro i j hi hj hband
  obtain ⟨i, rfl⟩ : ∃ i2, i = i2 + 1 := ⟨i - 1, by omega⟩
  obtain ⟨j, rfl⟩ : ∃ j2, j = j2 + 1 := ⟨j - 1, by omega⟩
  simp only [WhisperX.btCell]
  rw [if_pos hband]
  by_cases hd : WhisperX.oMax (WhisperX.oMax (WhisperX.dpDiag dW eW (i + 1) (j + 1))
      (WhisperX.dpUp dW eW (i + 1) (j + 1))) (WhisperX.dpLeft dW eW (i + 1) (j + 1)) =
      WhisperX.dpDiag dW eW (i + 1) (j + 1)
  · rw [if_pos hd]
    refine ⟨⟨fun _ => hd, fun _ => rfl⟩,
      ⟨fun h0 => (by cases h0), fun h0 => absurd hd h0.1⟩,
      fun h0 => (by cases h0)⟩
  · rw [if_neg hd]
    by_cases hu : WhisperX.oMax (WhisperX.oMax (WhisperX.dpDiag dW eW (i + 1) (j + 1))
        (WhisperX.dpUp dW eW (i + 1) (j + 1))) (WhisperX.dpLeft dW eW (i + 1) (j + 1)) =
        WhisperX.dpUp dW eW (i + 1) (j + 1)
    · rw [if_pos hu]
      refine ⟨⟨fun h0 => (by cases h0), fun h0 => absurd h0 hd⟩,
        ⟨fun _ => ⟨hd, hu⟩, fun _ => rfl⟩, fun h0 => (by cases h0)⟩
    · rw [if_neg hu]
      refine ⟨⟨fun h0 => (by cases h0), fun h0 => absurd h0 hd⟩,
        ⟨fun h0 => (by cases h0), fun h0 => absurd h0.2 hu⟩, fun _ => ?_⟩
      rcases oMax_eq_or (WhisperX.oMax (WhisperX.dpDiag dW eW (i + 1) (j + 1))
          (WhisperX.dpUp dW eW (i + 1) (j + 1)))
          (WhisperX.dpLeft dW eW (i + 1) (j + 1)) with h | h
      · rcases oMax_eq_or (WhisperX.dpDiag dW eW (i + 1) (j + 1))
            (WhisperX.dpUp dW eW (i + 1) (j + 1)) with h2 | h2
        · exact absurd (h.trans h2) hd
        · exact absurd (h.trans h2) hu
      · exact h

/-- Claim C6 witness: instantiation at cell (1, 1) of a concrete instance. -/
theorem C6_tiebreak_backtrack_w :
    ((WhisperX.btCell [⟨"a", 0, 1⟩] ["a"] 1 1 = 0 ↔
      WhisperX.oMax (WhisperX.oMax (WhisperX.dpDiag [⟨"a", 0, 1⟩] ["a"] 1 1)
        (WhisperX.dpUp [⟨"a", 0, 1⟩] ["a"] 1 1))
        (WhisperX.dpLeft [⟨"a", 0, 1⟩] ["a"] 1 1) =
        WhisperX.dpDiag [⟨"a", 0, 1⟩] ["a"] 1 1)) ∧
    WhisperX.walkRowN [⟨"a", 0, 1⟩] ["a"] 1 1 =
      ((WhisperX.stepsRowN [⟨"a", 0, 1⟩] ["a"] 1 1).map WhisperX.emitStep).flatten := by
  constructor
  · exact ((C6_tiebreak_backtrack [⟨"a", 0, 1⟩] ["a"]).1 1 1 (by decide) (by decide)
      (inBand_all 1 1 1 1 (by decide) (by decide) (by decide) (by decide) (by decide))).1
  · exact (C6_tiebreak_backtrack [⟨"a", 0, 1⟩] ["a"]).2.1 1 1

theorem segBlock_length (s : WhisperX.Seg) (nW : ℕ) :
    (WhisperX.segBlock s nW).length = nW := by
  unfold WhisperX.segBlock
  rw [List.length_map, List.length_range]

theorem segBlock_getElem (s : WhisperX.Seg) (nW k : ℕ) (h : k < nW) :
    (WhisperX.segBlock s nW)[k]? =
      some ⟨round3 (s.start + (k : ℚ) * ((s.stop - s.start) / nW)),
            round3 (s.start + ((k : ℚ) + 1) * ((s.stop - s.start) / nW))⟩ := by
  unfold WhisperX.segBlock
  rw [List.getElem?_map, List.getElem?_range h]
  rfl

theorem segBlock_tele (a d : ℚ) : ∀ n : ℕ,
    ((List.range n).map (fun (k : ℕ) =>
      round3 (a + ((k : ℚ) + 1) * d) - round3 (a + (k : ℚ) * d))).sum =
    round3 (a + (n : ℚ) * d) - round3 a := by
  intro n
  induction n with
  | zero => norm_num
  | succ n ih =>
    rw [List.range_succ, List.map_append, List.sum_append, ih]
    push_cast
    simp only [List.map_cons, List.map_nil, List.sum_cons, List.sum_nil]
    ring

/-- One segment's assigned durations telescope to the distance between the
rounded boundaries, hence match the segment duration within 1e-3. -/
theorem segBlock_sum (s : WhisperX.Seg) (nW : ℕ) (h : 1 ≤ nW) :
    |((WhisperX.segBlock s nW).map (fun t => t.stop - t.start)).sum -
      (s.stop - s.start)| ≤ 1/1000 := by
  have hmap : (WhisperX.segBlock s nW).map (fun t => t.stop - t.start) =
      (List.range nW).map (fun (k : ℕ) =>
        round3 (s.start + ((k : ℚ) + 1) * ((s.stop - s.start) / nW)) -
        round3 (s.start + (k : ℚ) * ((s.stop - s.start) / nW))) := by
    unfold WhisperX.segBlock
    rw [List.map_map]
    rfl
  rw [hmap, segBlock_tele]
  have hnW : ((nW : ℚ)) ≠ 0 := by
    have h2 : (0:ℚ) < (nW : ℚ) := by exact_mod_cast h
    linarith
  have hend : s.start + ((nW : ℕ) : ℚ) * ((s.stop - s.start) / nW) = s.stop := by
    field_simp
  rw [hend]
  have h1 := abs_round3_sub s.stop
  have h2 := abs_round3_sub s.start
  rw [abs_le] at h1 h2 ⊢
  obtain ⟨a1, a2⟩ := h1
  obtain ⟨b1, b2⟩ := h2
  constructor <;> linarith

/-- Every emitted assignment has at least one token. -/
theorem distAssign_pos (tot m : ℕ) :
    ∀ (pairs : List (WhisperX.Seg × ℕ)) (e : ℕ) (p : WhisperX.Seg × ℕ),
      p ∈ WhisperX.distAssign tot m pairs e → 1 ≤ p.2 := by
  intro pairs
  induction pairs with
  | nil => intro e p h; cases h
  | cons q rest ih =>
    intro e p h
    unfold WhisperX.distAssign at h
    dsimp only at h
    split at h <;> split at h
    · exact ih _ p h
    · rename_i h0
      rcases List.mem_cons.mp h with rfl | h2
      · exact Nat.one_le_iff_ne_zero.mpr h0
      · exact ih _ p h2
    · exact ih _ p h
    · rename_i h0
      rcases List.mem_cons.mp h with rfl | h2
      · exact Nat.one_le_iff_ne_zero.mpr h0
      · exact ih _ p h2

/-- The assignment consumes exactly the remaining token budget: the final
segment absorbs the remainder. -/
theorem distAssign_sum (tot m : ℕ) :
    ∀ (pairs : List (WhisperX.Seg × ℕ)) (e : ℕ), pairs ≠ [] → e ≤ m →
      ((WhisperX.distAssign tot m pairs e).map (fun p => p.2)).sum = m - e := by
  intro pairs
  induction pairs with
  | nil => intro e h; exact absurd rfl h
  | cons q rest ih =>
    intro e _ hem
    unfold WhisperX.distAssign
    dsimp only
    by_cases hrest : rest.isEmpty
    · rw [List.isEmpty_iff] at hrest
      subst hrest
      simp only [List.isEmpty_nil, if_true]
      split
      · rename_i h0
        simp only [WhisperX.distAssign, List.map_nil, List.sum_nil]
        omega
      · simp only [WhisperX.distAssign, List.map_cons, List.map_nil, List.sum_cons,
          List.sum_nil]
        omega
    · have hrest2 : rest ≠ [] := by
        intro hh
        subst hh
        simp at hrest
      rw [Bool.not_eq_true] at hrest
      rw [hrest]
      simp only [Bool.false_eq_true, if_false]
      split
      · rename_i h0
        rw [ih e hrest2 hem]
      · rw [List.map_cons, List.sum_cons, ih _ hrest2
          (by
            have := min_le_right (max 1 (rhe ((q.2 : ℚ) / tot * m)).toNat) (m - e)
            omega)]
        have := min_le_right (max 1 (rhe ((q.2 : ℚ) / tot * m)).toNat) (m - e)
        omega

theorem padLoop_length : ∀ (k : ℕ) (le : ℚ), (WhisperX.padLoop k le).length = k := by
  intro k
  induction k with
  | zero => intro le; rfl
  | succ k ih =>
    intro le
    show (WhisperX.padLoop k (round3 (le + 3/10))).length + 1 = k + 1
    rw [ih]

/-- Claim C8: for nonempty inputs every segment that receives tokens receives
at least one; within each such segment the assigned per-token durations sum to
the segment's duration to within 1e-3 seconds and the intervals are contiguous
in order; and the final segment absorbs the remainder so that the output has
exactly one timestamp per expected token. -/
theorem C8_distributor (segs : List WhisperX.Seg) (expW : List String)
    (hs : segs ≠ []) (he : expW ≠ []) :
    (WhisperX.distribute_segments_to_words segs expW).length = expW.length ∧
    ∀ p ∈ WhisperX.distAssign
        (((segs.map (fun s => (s, WhisperX.segWordCount s))).map (fun p => p.2)).sum)
        expW.length (segs.map (fun s => (s, WhisperX.segWordCount s))) 0,
      1 ≤ p.2 ∧
      |((WhisperX.segBlock p.1 p.2).map (fun t => t.stop - t.start)).sum -
        (p.1.stop - p.1.start)| ≤ 1/1000 ∧
      ∀ k, k + 1 < p.2 →
        ((WhisperX.segBlock p.1 p.2)[k + 1]?).map TS.start =
        ((WhisperX.segBlock p.1 p.2)[k]?).map TS.stop := by
  constructor
  · unfold WhisperX.distribute_segments_to_words
    rw [if_neg (by
      intro hor
      rcases hor with h1 | h1
      · exact hs (List.isEmpty_iff.mp h1)
      · exact he (List.isEmpty_iff.mp h1))]
    dsimp only
    rw [List.length_append, padLoop_length]
    have hpairs : segs.map (fun s => (s, WhisperX.segWordCount s)) ≠ [] := by
      intro hh
      exact hs (List.map_eq_nil_iff.mp hh)
    have hsum := distAssign_sum
      (((segs.map (fun s => (s, WhisperX.segWordCount s))).map (fun p => p.2)).sum)
      expW.length (segs.map (fun s => (s, WhisperX.segWordCount s))) 0 hpairs
      (Nat.zero_le _)
    rw [Nat.sub_zero] at hsum
    have hflat : ((WhisperX.distAssign
        (((segs.map (fun s => (s, WhisperX.segWordCount s))).map (fun p => p.2)).sum)
        expW.length (segs.map (fun s => (s, WhisperX.segWordCount s))) 0).map
        (fun p => WhisperX.segBlock p.1 p.2)).flatten.length = expW.length := by
      rw [List.length_flatten, List.map_map]
      rw [show (List.length ∘ fun p : WhisperX.Seg × ℕ => WhisperX.segBlock p.1 p.2) =
        (fun p : WhisperX.Seg × ℕ => p.2) from funext (fun p => segBlock_length p.1 p.2)]
      exact hsum
    rw [hflat, hsum]
    omega
  · intro p hp
    refine ⟨distAssign_pos _ _ _ _ p hp, segBlock_sum p.1 p.2 (distAssign_pos _ _ _ _ p hp), ?_⟩
    intro k hk
    rw [segBlock_getElem p.1 p.2 (k + 1) (by omega), segBlock_getElem p.1 p.2 k (by omega)]
    simp only [Option.map_some']
    congr 2
    push_cast
    ring

/-- Claim C8 witness: one two-word segment over two expected words; the
assignment gives that segment both tokens. -/
theorem C8_distributor_w :
    (WhisperX.distribute_segments_to_words [⟨"a b", 0, 1⟩] ["x", "y"]).length =
      (["x", "y"] : List String).length ∧
    1 ≤ ((⟨"a b", 0, 1⟩ : WhisperX.Seg), 2).2 ∧
    |((WhisperX.segBlock (⟨"a b", 0, 1⟩ : WhisperX.Seg) 2).map
        (fun t => t.stop - t.start)).sum -
      ((⟨"a b", 0, 1⟩ : WhisperX.Seg).stop - (⟨"a b", 0, 1⟩ : WhisperX.Seg).start)| ≤
      1/1000 := by
  have h := C8_distributor [⟨"a b", 0, 1⟩] ["x", "y"] (by decide) (by decide)
  have hmem := h.2 ((⟨"a b", 0, 1⟩ : WhisperX.Seg), 2) (by decide)
  exact ⟨h.1, hmem.1, hmem.2.1⟩

theorem foldl_best_pred (tws : List WXSent.TW) (sw : List (List Char))
    (P : ℕ → Prop) :
    ∀ (l : List ℕ) (b : ℕ × ℕ), P b.1 → (∀ x ∈ l, P x) →
      P ((l.foldl (fun b s =>
        let sc := WXSent.scoreAt tws sw s
        if b.2 < sc then (s, sc) else b) b).1) := by
  intro l
  induction l with
  | nil => intro b hb _; exact hb
  | cons x t ih =>
    intro b hb hl
    show P ((t.foldl _ (if b.2 < WXSent.scoreAt tws sw x then (x, WXSent.scoreAt tws sw x)
      else b)).1)
    apply ih
    · split
      · exact hl x (List.mem_cons_self x t)
      · exact hb
    · intro y hy
      exact hl y (List.mem_cons_of_mem x hy)

theorem bestStart_ge (tws : List WXSent.TW) (sw : List (List Char)) (ptr : ℕ) :
    ptr ≤ WXSent.bestStart tws sw ptr := by
  unfold WXSent.bestStart
  apply foldl_best_pred tws sw (fun x => ptr ≤ x)
  · exact le_refl ptr
  · intro x hx
    rw [List.mem_range'] at hx
    obtain ⟨i, _, rfl⟩ := hx
    omega

theorem bestStart_le (tws : List WXSent.TW) (sw : List (List Char)) (ptr : ℕ)
    (hp : ptr ≤ tws.length) : WXSent.bestStart tws sw ptr ≤ tws.length := by
  unfold WXSent.bestStart
  apply foldl_best_pred tws sw (fun x => x ≤ tws.length)
  · exact hp
  · intro x hx
    rw [List.mem_range'] at hx
    obtain ⟨i, hi, rfl⟩ := hx
    omega

theorem matchSpans_head (tws : List WXSent.TW) :
    ∀ (sents : List String) (p : ℕ) (a : ℕ × ℕ × ℕ),
      (WXSent.matchSpans tws sents p).head? = some a → a.1 = p := by
  intro sents
  induction sents with
  | nil => intro p a h; cases h
  | cons sent rest ih =>
    intro p a h
    unfold WXSent.matchSpans at h
    dsimp only at h
    split at h
    · exact ih p a h
    · rw [List.head?_cons] at h
      injection h with h
      rw [← h]

theorem matchLoop_spans_length (tws : List WXSent.TW) :
    ∀ (sents : List String) (p : ℕ),
      (WXSent.matchLoop tws sents p).length = (WXSent.matchSpans tws sents p).length := by
  intro sents
  induction sents with
  | nil => intro p; rfl
  | cons sent rest ih =>
    intro p
    unfold WXSent.matchLoop WXSent.matchSpans
    dsimp only
    split
    · exact ih p
    · rw [List.length_cons, List.length_cons, ih]

theorem matchSpans_props (tws : List WXSent.TW) :
    ∀ (sents : List String) (p : ℕ), p ≤ tws.length →
      (∀ x ∈ WXSent.matchSpans tws sents p,
        p ≤ x.1 ∧ x.1 ≤ x.2.1 ∧ x.2.1 ≤ x.2.2 ∧ x.2.2 ≤ tws.length) ∧
      List.Chain' (fun a b : ℕ × ℕ × ℕ => b.1 = a.2.2) (WXSent.matchSpans tws sents p) ∧
      List.Pairwise (fun a b : ℕ × ℕ × ℕ => a.2.2 ≤ b.2.1)
        (WXSent.matchSpans tws sents p) := by
  intro sents
  induction sents with
  | nil =>
    intro p hp
    exact ⟨fun x h => absurd h (List.not_mem_nil x), List.chain'_nil, List.Pairwise.nil⟩
  | cons sent rest ih =>
    intro p hp
    unfold WXSent.matchSpans
    dsimp only
    split
    · exact ih p hp
    · have hbs : p ≤ WXSent.bestStart tws (WXSent.sentWords sent) p :=
        bestStart_ge tws (WXSent.sentWords sent) p
      have hbsN : WXSent.bestStart tws (WXSent.sentWords sent) p ≤ tws.length :=
        bestStart_le tws (WXSent.sentWords sent) p hp
      have hse1 : WXSent.bestStart tws (WXSent.sentWords sent) p ≤
          min (WXSent.bestStart tws (WXSent.sentWords sent) p +
            (WXSent.sentWords sent).length) tws.length :=
        le_min (Nat.le_add_right _ _) hbsN
      have hseN : min (WXSent.bestStart tws (WXSent.sentWords sent) p +
          (WXSent.sentWords sent).length) tws.length ≤ tws.length := min_le_right _ _
      obtain ⟨hmem, hch, hpw⟩ := ih (min (WXSent.bestStart tws (WXSent.sentWords sent) p +
        (WXSent.sentWords sent).length) tws.length) hseN
      refine ⟨?_, ?_, ?_⟩
      · intro x hx
        rcases List.mem_cons.mp hx with rfl | hx2
        · exact ⟨le_refl p, hbs, hse1, hseN⟩
        · obtain ⟨h1, h2, h3, h4⟩ := hmem x hx2
          exact ⟨le_trans (le_trans hbs hse1) h1, h2, h3, h4⟩
      · rw [List.chain'_cons']
        refine ⟨?_, hch⟩
        intro b hb
        exact (matchSpans_head tws rest _ b hb).symm ▸ rfl
      · rw [List.pairwise_cons]
        refine ⟨?_, hpw⟩
        intro b hb
        obtain ⟨h1, h2, -, -⟩ := hmem b hb
        exact le_trans h1 h2

/-- Claim C9: the Sentence-Span Matcher's pointer is monotone: every candidate
start (hence the chosen best start) is at or after the current pointer, each
span runs from its best start to its span end within the stream, consecutive
iterations resume exactly at the previous span end, and the spans of distinct
sentences are pairwise disjoint in order (no sub-token consumed by an earlier
sentence is included in a later one).  Trace entries are (pointer before,
best start, span end); the trace has one entry per emitted sentence record. -/
theorem C9_sentence_monotonicity (tws : List WXSent.TW) (sents : List String)
    (p0 : ℕ) (hp : p0 ≤ tws.length) :
    (∀ sw ptr2, ptr2 ≤ WXSent.bestStart tws sw ptr2) ∧
    (∀ x ∈ WXSent.matchSpans tws sents p0,
      p0 ≤ x.1 ∧ x.1 ≤ x.2.1 ∧ x.2.1 ≤ x.2.2 ∧ x.2.2 ≤ tws.length) ∧
    List.Chain' (fun a b : ℕ × ℕ × ℕ => b.1 = a.2.2) (WXSent.matchSpans tws sents p0) ∧
    List.Pairwise (fun a b : ℕ × ℕ × ℕ => a.2.2 ≤ b.2.1)
      (WXSent.matchSpans tws sents p0) ∧
    (WXSent.matchLoop tws sents p0).length = (WXSent.matchSpans tws sents p0).length := by
  obtain ⟨h1, h2, h3⟩ := matchSpans_props tws sents p0 hp
  exact ⟨fun sw ptr2 => bestStart_ge tws sw ptr2, h1, h2, h3,
    matchLoop_spans_length tws sents p0⟩

/-- Claim C9 witness: concrete two-sentence instance; the trace is
[(0, 0, 1), (1, 1, 2)]. -/
theorem C9_sentence_monotonicity_w :
    0 ≤ WXSent.bestStart [⟨['a'], 0, 1⟩, ⟨['b'], 1, 2⟩] [['a']] 0 ∧
    (0 ≤ ((0, 0, 1) : ℕ × ℕ × ℕ).1 ∧ ((0, 0, 1) : ℕ × ℕ × ℕ).1 ≤ (0, 0, 1).2.1 ∧
      ((0, 0, 1) : ℕ × ℕ × ℕ).2.1 ≤ (0, 0, 1).2.2 ∧
      ((0, 0, 1) : ℕ × ℕ × ℕ).2.2 ≤
        ([⟨['a'], 0, 1⟩, ⟨['b'], 1, 2⟩] : List WXSent.TW).length) ∧
    List.Chain' (fun a b : ℕ × ℕ × ℕ => b.1 = a.2.2)
      (WXSent.matchSpans [⟨['a'], 0, 1⟩, ⟨['b'], 1, 2⟩] ["a", "b"] 0) ∧
    List.Pairwise (fun a b : ℕ × ℕ × ℕ => a.2.2 ≤ b.2.1)
      (WXSent.matchSpans [⟨['a'], 0, 1⟩, ⟨['b'], 1, 2⟩] ["a", "b"] 0) ∧
    (WXSent.matchLoop [⟨['a'], 0, 1⟩, ⟨['b'], 1, 2⟩] ["a", "b"] 0).length =
      (WXSent.matchSpans [⟨['a'], 0, 1⟩, ⟨['b'], 1, 2⟩] ["a", "b"] 0).length := by
  have h := C9_sentence_monotonicity [⟨['a'], 0, 1⟩, ⟨['b'], 1, 2⟩] ["a", "b"] 0 (by decide)
  exact ⟨h.1 [['a']] 0, h.2.1 (0, 0, 1) (by decide), h.2.2.1, h.2.2.2.1, h.2.2.2.2⟩

/-- Claim C7 witness: the primitives instantiated on the exercised code
points, the input "A_Ω", and concrete instances of the quantified
conjuncts. -/
theorem C7_normalizer_w :
    normSt pyIsW pyLow [] = [] ∧ normWx pyIsW pyLow [] = [] ∧
    (pyIsW 'a' = true ∧ pyLow 'a' = ['a']) ∧
    normWx pyIsW pyLow (normWx pyIsW pyLow ['A', '_', 'Ω']) =
      normWx pyIsW pyLow ['A', '_', 'Ω'] ∧
    (pyIsW '_' = true ∧ pyLow '_' = ['_']) ∧
    normSt pyIsW pyLow (normSt pyIsW pyLow ['A', '_', 'Ω']) =
      normSt pyIsW pyLow ['A', '_', 'Ω'] ∧
    (normSt pyIsW pyLow ['Ω'] = pyLow 'Ω' ∧ pyLow 'Ω' ≠ [] ∧
      normWx pyIsW pyLow ['Ω'] ≠ []) := by
  have h := C7_normalizer pyIsW pyLow pyLetter ['A', '_', 'Ω'] pyLow_fix pyIsW_low pyLetter_spec
  have hE := h.2.2.2.2.1 (by decide)
  exact ⟨h.1, h.2.1, h.2.2.1 'a' (by decide), h.2.2.2.1, hE.1 '_' (by decide), hE.2,
    h.2.2.2.2.2 'Ω' (by decide)⟩
